import Mathlib

/-!
# A shallow embedding of the bitwise (Fredkin) trie index

This file embeds the core of `src/bitwise_trie.hpp`: an intrusive ordered
index over an unsigned integer key space.  Items live in caller-owned
storage; the index only reads and writes four housekeeping fields per item
(`trie_parent`, `trie_child[2]`, `trie_sibling[2]`) plus the key, and one
fixed-size head record (`trie_children[B]`, `trie_count`, `trie_nobbledir`).

Pointers to items are modelled as natural-number ids into a total store
`Store := Nat -> TrieItem`.  The tagged parent word (real pointer / head
slot index / null) is modelled by the three-way `PRef`; the concrete
low-bit packing of the default accessor is modelled separately, on raw
machine words, for the accessor claims.

Keys are `w`-bit (`w` head slots) and the count is a `cw`-bit unsigned
value, both kept as explicit parameters.
-/

namespace BitwiseTrie

/-- The parent word of an item: a null pointer (secondary sibling), a
tagged head-slot index, or a pointer to the parent item. -/
inductive PRef where
  | null : PRef
  | index : Nat → PRef
  | node : Nat → PRef
deriving DecidableEq, Repr

/-- The four housekeeping fields plus key of one indexed item
(`trie_parent`, `trie_child[0/1]`, `trie_sibling[0/1]`, `trie_key`). -/
structure TrieItem where
  parent : PRef
  child0 : Option Nat
  child1 : Option Nat
  sib0 : Nat
  sib1 : Nat
  key : Nat
deriving DecidableEq, Repr

/-- Caller-owned item storage, addressed by item id. -/
abbrev Store := Nat → TrieItem

/-- The trie index head record: per-bit-position child slots, the item
count, and the alternating nobble-direction flag. -/
structure Head where
  children : Nat → Option Nat
  count : Nat
  nobbledir : Bool

/-- `bitwise_trie_item_accessors::child(bool right)`. -/
def child (it : TrieItem) (dir : Bool) : Option Nat :=
  if dir then it.child1 else it.child0

/-- Write one child slot of one item. -/
def setChild (st : Store) (i : Nat) (dir : Bool) (v : Option Nat) : Store :=
  fun j =>
    if j = i then
      if dir then { st i with child1 := v } else { st i with child0 := v }
    else st j

/-- Write the parent word of one item (covers `set_parent`,
`set_parent_is_index` and `set_is_secondary_sibling`). -/
def setParent (st : Store) (i : Nat) (p : PRef) : Store :=
  fun j => if j = i then { st i with parent := p } else st j

/-- Write one sibling slot of one item. -/
def setSib (st : Store) (i : Nat) (dir : Bool) (v : Nat) : Store :=
  fun j =>
    if j = i then
      if dir then { st i with sib1 := v } else { st i with sib0 := v }
    else st j

/-- `is_primary_sibling()`: the parent word is not null. -/
def isPrimary (it : TrieItem) : Bool := it.parent ≠ PRef.null

/-- Write one head child slot. -/
def setHChild (h : Head) (b : Nat) (v : Option Nat) : Head :=
  { h with children := fun b' => if b' = b then v else h.children b' }

/-- `incr_size()`: `++trie_count` on a `cw`-bit unsigned count. -/
def incrSize (cw : Nat) (h : Head) : Head :=
  { h with count := (h.count + 1) % 2 ^ cw }

/-- `decr_size()`: `--trie_count` on a `cw`-bit unsigned count (wraps). -/
def decrSize (cw : Nat) (h : Head) : Head :=
  { h with count := (h.count + (2 ^ cw - 1)) % 2 ^ cw }

/-- Fuel-driven base-2 logarithm (the fuel is an upper bound on the
recursion depth; `n` itself always suffices). -/
def bitscanAux : Nat → Nat → Nat
  | _, 0 => 0
  | n, fuel + 1 => if 2 ≤ n then bitscanAux (n / 2) fuel + 1 else 0

/-- `detail::bitscanr`: position of the highest set bit; 0 for input 0. -/
def bitscanr (v : Nat) : Nat := bitscanAux v v

/-! ## The default accessor's tagged parent encoding

`bitwise_trie_item_accessors` packs "my parent is head slot `i`" into the
low bits of the parent pointer word.  Modelled on raw 64-bit words; the
`bit_index()` read goes through a cast to a 32-bit `unsigned`. -/

/-- Pointer width in bits of the modelled platform. -/
def ptrBits : Nat := 64

/-- `set_parent_is_index(bit_index)`: stores `(bit_index << 2) | 3`. -/
def tagIndex (b : Nat) : Nat := (b * 4 + 3) % 2 ^ ptrBits

/-- `parent_is_index()`: both reserved low bits set. -/
def tagParentIsIndex (p : Nat) : Bool := p % 4 = 3

/-- `bit_index()`: `((unsigned)trie_parent) >> 2`. -/
def tagBitIndex (p : Nat) : Nat := p % 2 ^ 32 / 4

/-- `set_parent(x)`: stores the pointer word unchanged. -/
def tagSetParent (p : Nat) : Nat := p % 2 ^ ptrBits

/-- `parent()`: reads the pointer word back. -/
def tagParent (p : Nat) : Nat := p

/-! ## `clear()`, copy construction and copy assignment -/

/-- `clear()`: null the `w` head child slots and zero the count; the
nobble-direction flag and all item storage are untouched. -/
def clearOp (w : Nat) (h : Head) : Head :=
  { h with children := fun b => if b < w then none else h.children b,
           count := 0 }

/-- Copy assignment: copy the `w` head child slots and the count from
`src` into `dst`; the nobble-direction flag is not copied and no item
field is written. -/
def copyAssign (w : Nat) (dst src : Head) : Head :=
  { dst with children := fun b => if b < w then src.children b else dst.children b,
             count := src.count }

/-- Copy construction: the same slot-and-count copy, starting from an
indeterminate head record (the constructor does not run `clear()`). -/
def copyCtor (w : Nat) (junk src : Head) : Head := copyAssign w junk src

/-! ## `_trieinsert` -/

/-- The equal-key branch of `_trieinsert`: `r`'s parent word is nulled
(`set_is_secondary_sibling`), `r`'s next is set to `node`, `r`'s prev to
`node`'s prev `p` (sibling pointers are self-initialised and never null,
so the `if(auto p = ...)` binding always takes its then-branch), and
`node`'s prev is set to `r`.  The remaining write
`nodelink.set_sibling(true, r)` sits behind the guard
`if(nullptr = nodelink.sibling(true))` — read minimally as `==`, which
never holds for the same reason — so the forward `sibling(true)` link of
`node` is left unchanged and the forward ring is never closed through
`r`. -/
def insRingSplice (st : Store) (r node : Nat) : Store :=
  let s1 := setParent st r PRef.null
  let s2 := setSib s1 r true node
  let p := (s2 node).sib0
  let s3 := setSib s2 r false p
  setSib s3 node false r

/-- The descent loop of `_trieinsert`: walk down from `node`, testing
successively lower bits of `rkey`; splice into a ring on an equal key,
attach `r` at the first absent child slot otherwise.  `none` marks fuel
exhaustion (the C loop would not have terminated by that depth). -/
def insDescend (st : Store) (r rkey : Nat) : Nat → Nat → Nat → Option Store
  | _, _, 0 => none
  | keybit, node, fuel + 1 =>
    if (st node).key = rkey then some (insRingSplice st r node)
    else
      let keybit' := keybit / 2
      let dir : Bool := rkey &&& keybit' ≠ 0
      match child (st node) dir with
      | none => some (setChild (setParent st r (PRef.node node)) node dir (some r))
      | some c => insDescend st r rkey keybit' c fuel

/-- The housekeeping-field initialisation at the top of `_trieinsert`:
null parent, no children, both siblings self. -/
def insInit (st : Store) (r : Nat) : Store :=
  setSib (setSib (setChild (setChild (setParent st r PRef.null)
    r false none) r true none) r false r) r true r

/-- `_trieinsert(r)`: fail when the count increment would wrap; otherwise
initialise `r`'s four housekeeping fields, then either attach directly to
an empty head slot or descend the branch.  `none` marks divergence of the
descent loop. -/
def trieinsert (cw : Nat) (st : Store) (h : Head) (r : Nat) : Option (Store × Head × Bool) :=
  if (h.count + 1) % 2 ^ cw < h.count then some (st, h, false)
  else
    let rkey := (st r).key
    let s1 := insInit st r
    let bitidx := bitscanr rkey
    match h.children bitidx with
    | none =>
      let s2 := setParent s1 r (PRef.index bitidx)
      some (s2, incrSize cw (setHChild h bitidx (some r)), true)
    | some node =>
      match insDescend s1 r rkey (2 ^ bitidx) node (bitidx + 2) with
      | none => none
      | some s2 => some (s2, incrSize cw h, true)

/-- `insert(p)`: `size() < max_size() && _trieinsert(p)`, yielding an
iterator to `p` on success and `end()` (modelled `none`) on failure. -/
def insertOp (cw : Nat) (st : Store) (h : Head) (p : Nat) :
    Option (Store × Head × Option Nat) :=
  if h.count < 2 ^ cw - 1 then
    match trieinsert cw st h p with
    | none => none
    | some (st', h', ok) => some (st', h', if ok then some p else none)
  else some (st, h, none)

/-! ## `trieremove` -/

/-- The nobble policy `detail::nobble_function_implementation<Dir>`:
`Dir = -1` always prefers the zero child, `Dir = 1` the one child,
`Dir = 0` flips the flag stored in the head record. -/
def nobbleOf (dir : Int) (h : Head) : Bool × Head :=
  if dir < 0 then (false, h)
  else if 0 < dir then (true, h)
  else (!h.nobbledir, { h with nobbledir := !h.nobbledir })

/-- The `set_parent` lambda of `trieremove`: transfer `r`'s parent link or
head-slot tag to `node`.  `none` marks the unreachable null-parent case
(the source asserts `rlink.parent() != nullptr` beforehand). -/
def setParentXfer (st : Store) (h : Head) (r node : Nat) : Option (Store × Head) :=
  match (st r).parent with
  | PRef.index b => some (setParent st node (PRef.index b), setHChild h b (some node))
  | PRef.node p =>
    if (st p).child0 = some r then
      some (setParent (setChild st p false (some node)) node (PRef.node p), h)
    else
      some (setParent (setChild st p true (some node)) node (PRef.node p), h)
  | PRef.null => none

/-- The ring splice of removal cases 1 and 2: route the removed item's
neighbours around it (`node = sibling(false); node.sib1 := r.sib1;
node = r.sib1` — reread after the first write — `node.sib0 := r.sib0`),
returning the updated store and the reread next sibling. -/
def removeSplice (st : Store) (r : Nat) : Store × Nat :=
  let s1 := setSib st ((st r).sib0) true ((st r).sib1)
  let nxt := (s1 r).sib1
  (setSib s1 nxt false ((s1 r).sib0), nxt)

/-- The replacement search of removal case 4: descend from a child of the
removed node, preferring the nobble direction, until a node with no
children remains; returns that node and the direction under which it
hangs from its parent.  `none` marks fuel exhaustion. -/
def removeDescend (st : Store) (nd : Bool) : Nat → Bool → Nat → Option (Nat × Bool)
  | _, _, 0 => none
  | c, pidx, fuel + 1 =>
    match child (st c) nd with
    | some c' => removeDescend st nd c' nd fuel
    | none =>
      match child (st c) (!nd) with
      | some c' => removeDescend st nd c' (!nd) fuel
      | none => some (c, pidx)

/-- `trieremove(r)` (named `_trieremove` at its call sites): the four-case
removal.  The argument is the raw iterator pointer; a null pointer is
dereferenced immediately (`rlink.key()` / `is_secondary_sibling()`),
modelled as the crash result `none`. -/
def trieremove (w cw : Nat) (dir : Int) (st : Store) (h : Head) (ro : Option Nat) :
    Option (Store × Head) :=
  match ro with
  | none => none
  | some r =>
    if (st r).parent = PRef.null then
      -- case 1: secondary sibling, splice out of the ring
      some ((removeSplice st r).1, decrSize cw h)
    else if (st r).sib1 ≠ r then
      -- case 2: primary with a living ring; promote the next sibling
      match setParentXfer (removeSplice st r).1 h r (removeSplice st r).2 with
      | none => none
      | some (s3, h3) => some (s3, decrSize cw h3)
    else if (st r).child0 = none ∧ (st r).child1 = none then
      -- case 3: childless primary alone in its ring; detach directly
      match (st r).parent with
      | PRef.index b => some (st, decrSize cw (setHChild h b none))
      | PRef.node p =>
        if (st p).child0 = some r then some (setChild st p false none, decrSize cw h)
        else some (setChild st p true none, decrSize cw h)
      | PRef.null => none
    else
      -- case 4: internal primary alone in its ring; find a replacement
      let ndh := nobbleOf dir h
      let nd := ndh.1
      let h1 := ndh.2
      let start : Nat × Bool :=
        match child (st r) nd with
        | some c => (c, nd)
        | none =>
          match child (st r) (!nd) with
          | some c => (c, !nd)
          | none => (r, nd)
      match removeDescend st nd start.1 start.2 (w + 2) with
      | none => none
      | some (leaf, pidx) =>
        match (st leaf).parent with
        | PRef.node q =>
          let s1 := setChild st q pidx none
          let s2 :=
            match (s1 r).child0 with
            | some x => setParent (setChild s1 leaf false (some x)) x (PRef.node leaf)
            | none => s1
          let s3 :=
            match (s2 r).child1 with
            | some x => setParent (setChild s2 leaf true (some x)) x (PRef.node leaf)
            | none => s2
          match setParentXfer s3 h1 r leaf with
          | none => none
          | some (s4, h4) => some (s4, decrSize cw h4)
        | _ => none

/-! ## The find family

`_triefind` and `_triecfind` are declared and called by `find`,
`close_find`, `nearest_find`, `count` and `contains`, but their bodies are
absent from the source tree; the two descents below are modelled from the
spec. -/

/-- Modelled from the spec: the body of `_triefind` is absent from the
source tree (only its callers remain).  Exact find per the spec's §4.5:
"descend by successive key bits from the appropriate head slot; on
reaching a node with matching key, return it (the primary); return not
found if a required child is absent". -/
def findDescend (st : Store) (k : Nat) : Nat → Nat → Nat → Option Nat
  | _, _, 0 => none
  | keybit, node, fuel + 1 =>
    if (st node).key = k then some node
    else
      let keybit' := keybit / 2
      let dir : Bool := k &&& keybit' ≠ 0
      match child (st node) dir with
      | none => none
      | some c => findDescend st k keybit' c fuel

/-- Modelled from the spec: `_triefind(k)` starts the exact-find descent
at head slot `highest_set_bit(k)`. -/
def triefind (st : Store) (h : Head) (k : Nat) : Option Nat :=
  match h.children (bitscanr k) with
  | none => none
  | some node => findDescend st k (2 ^ bitscanr k) node (bitscanr k + 2)

/-- Modelled from the spec: the body of `_triecfind` is absent from the
source tree.  `nearest_find(k)` = `close_find(k, SIZE_MAX)` per §4.5
"returns the item with the smallest key that is ≥ k", or not-found when
no present key is ≥ `k`; rendered as the first exact-find hit scanning
the `w`-bit key space upward from `k`. -/
def nearestFind (w : Nat) (st : Store) (h : Head) (k : Nat) : Option Nat :=
  (List.range' k (2 ^ w - k)).findSome? fun k' => triefind st h k'

/-- `count(k)`: the ring walk of `count` counting the members after the
primary (`ret` starts at 1 and each step follows `sibling(true)` until
back at the found item).  `none` marks a walk that has not closed within
the fuel. -/
def ringCount (st : Store) (p : Nat) : Nat → Nat → Option Nat
  | _, 0 => none
  | i, fuel + 1 =>
    if i = p then some 0 else (ringCount st p ((st i).sib1) fuel).map (· + 1)

/-- `count(k)`: 0 when `_triefind` misses, else 1 plus the ring walk. -/
def countK (st : Store) (h : Head) (k : Nat) : Option Nat :=
  match triefind st h k with
  | none => some 0
  | some p => (ringCount st p ((st p).sib1) (h.count + 1)).map (· + 1)

/-! ## Traversal: `_triemin`, `_triebranchnext`, `_trienext` -/

/-- First populated head slot at position ≥ `b` (below `w`). -/
def headScan (h : Head) (w b : Nat) : Option Nat :=
  (List.range' b (w - b)).findSome? fun b' => h.children b'

/-- `_triemin()`: null when empty, else the root of the lowest populated
head slot. -/
def triemin (w : Nat) (st : Store) (h : Head) : Option Nat :=
  if h.count = 0 then none else headScan h w 0

/-- Result of `_triebranchnext`: a next item in the same branch, the top
of the branch reached (carrying the root item), or a crash/divergence. -/
inductive BRes where
  | found : Nat → BRes
  | top : Nat → BRes
  | stuck : BRes
deriving DecidableEq, Repr

/-- The `while(!rlink.is_primary_sibling())` climb of `_triebranchnext`:
follow `sibling(true)` from a ring member back to the primary. -/
def ringToPrimary (st : Store) : Nat → Nat → Option Nat
  | _, 0 => none
  | r, fuel + 1 => if isPrimary (st r) then some r else ringToPrimary st ((st r).sib1) fuel

/-- The parent climb of `_triebranchnext`: ascend until some ancestor was
entered from its zero child and has a one child (return that one child),
or the branch root (parent is a head-slot tag) is reached. -/
def branchUp (st : Store) : Nat → Nat → BRes
  | _, 0 => BRes.stuck
  | r, fuel + 1 =>
    match (st r).parent with
    | PRef.index _ => BRes.top r
    | PRef.null => BRes.stuck
    | PRef.node p =>
      if (st p).child0 = some r ∧ (st p).child1 ≠ none then
        match (st p).child1 with
        | some c => BRes.found c
        | none => BRes.stuck
      else branchUp st p fuel

/-- `_triebranchnext(r)`: next ring member if the next sibling is not the
primary; else climb to the primary, prefer its zero child then one child,
else climb parents.  (The source's leaf test compares `sibling(true)`
against a local initialised to null, which never fires for attached
items, so the significant test is primacy of the next sibling.) -/
def triebranchnext (st : Store) (fuel r : Nat) : BRes :=
  if ¬ isPrimary (st ((st r).sib1)) then BRes.found ((st r).sib1)
  else
    match ringToPrimary st r fuel with
    | none => BRes.stuck
    | some r' =>
      match (st r').child0 with
      | some c => BRes.found c
      | none =>
        match (st r').child1 with
        | some c => BRes.found c
        | none => branchUp st r' fuel

/-- `_trienext(r)`: within-branch successor, or the root of the next
populated head slot; `some none` is `end()`, `none` a crash/divergence. -/
def trienext (w : Nat) (st : Store) (h : Head) (r : Nat) (fuel : Nat) :
    Option (Option Nat) :=
  match triebranchnext st fuel r with
  | BRes.found x => some (some x)
  | BRes.stuck => none
  | BRes.top root =>
    match (st root).parent with
    | PRef.index b => some (headScan h w (b + 1))
    | _ => none

/-- Forward traversal item list from an iterator position, truncated at
`end()` (fuel-bounded; a `stuck` step truncates as well). -/
def travList (w : Nat) (st : Store) (h : Head) : Nat → Option Nat → List Nat
  | 0, _ => []
  | _, none => []
  | fuel + 1, some i =>
    i :: (match trienext w st h i (h.count + w + 2) with
          | some nx => travList w st h fuel nx
          | none => [])

/-- The full `begin()`..`end()` forward traversal. -/
def traversal (w : Nat) (st : Store) (h : Head) : List Nat :=
  travList w st h (h.count + w + 2) (triemin w st h)

/-! ## `erase` -/

/-- The `++ret` computed inside `erase(const_iterator)`: the successor of
the erased position (a no-op on `end()`). -/
def eraseSucc (w : Nat) (st : Store) (h : Head) : Option Nat → Option (Option Nat)
  | none => some none
  | some i => trienext w st h i (h.count + w + 2)

/-- `erase(const_iterator it)`: remove `*it` and return `it` itself (the
successor `++ret` is computed but not returned). -/
def eraseIt (w cw : Nat) (dir : Int) (st : Store) (h : Head) (it : Option Nat) :
    Option (Store × Head × Option Nat) :=
  match trieremove w cw dir st h it with
  | none => none
  | some (st', h') => some (st', h', it)

/-- `erase(key_type k)`: `erase(find(k))`. -/
def eraseK (w cw : Nat) (dir : Int) (st : Store) (h : Head) (k : Nat) :
    Option (Store × Head × Option Nat) :=
  eraseIt w cw dir st h (triefind st h k)

/-! ## Small observers -/

/-- `size()`. -/
def sizeOp (h : Head) : Nat := h.count

/-- `empty()`. -/
def emptyOp (h : Head) : Bool := h.count == 0

/-- `max_size()`: `(_index_type) -1` for a `cw`-bit unsigned count. -/
def maxSizeOp (cw : Nat) : Nat := 2 ^ cw - 1

/-- `clear()` at the state level: the head is reset, the item storage is
not touched (the function has only head accessors in scope). -/
def clearState (w : Nat) (st : Store) (h : Head) : Store × Head :=
  (st, clearOp w h)

/-! ## Concrete scenario states used by counterexamples and witnesses -/

/-- An unattached item with the given key and indeterminate housekeeping
fields. -/
def jitem (k : Nat) : TrieItem := ⟨PRef.null, none, none, 0, 0, k⟩

/-- An empty head record. -/
def emptyHead : Head := ⟨fun _ => none, 0, false⟩

/-- Run one `insert` on an optional state, keeping the state. -/
def insStep (cw : Nat) (s : Option (Store × Head)) (p : Nat) : Option (Store × Head) :=
  match s with
  | none => none
  | some (st, h) => (insertOp cw st h p).map fun r => (r.1, r.2.1)

/-- Run one `erase(iterator)` on an optional state, keeping the state. -/
def eraseStep (w cw : Nat) (dir : Int) (s : Option (Store × Head)) (p : Nat) :
    Option (Store × Head) :=
  match s with
  | none => none
  | some (st, h) => (eraseIt w cw dir st h (some p)).map fun r => (r.1, r.2.1)

/-- Items 0..3 with keys 9, 12, 10, 10 (4-bit key space). -/
def storeN : Store := fun i => jitem ([9, 12, 10, 10].getD i 0)

/-- Items 0..1 with keys 3, 2 (2-bit key space): both keys share highest
set bit 1, and the second insert lands as the zero child of the first. -/
def storeB : Store := fun i => jitem ([3, 2].getD i 0)

/-- Insert keys 3 then 2. -/
def runB : Option (Store × Head) := insStep 2 (insStep 2 (some (storeB, emptyHead)) 0) 1

/-- Items all keyed 5: the duplicate-key insertion workload. -/
def storeD : Store := fun _ => jitem 5

/-! ## Structural validity

A branch (the subtree hanging off one head slot) is abstracted by a
finite tree of item ids; `reprT` checks that the pointer structure in the
store realises that tree, mirroring the invariants that the source's
debug validity checker (`_triecheckvalidity`) asserts: parent/child link
coherence, per-level key-prefix agreement, and well-formed circular
sibling rings of equal keys. -/

/-- Abstract shape of one branch: a node is an item id, its ring of
secondary siblings in next-order, and two child subtrees. -/
inductive TTree where
  | nil : TTree
  | node : Nat → List Nat → TTree → TTree → TTree
deriving DecidableEq, Repr

/-- All item ids of a branch tree: every primary and every ring member. -/
def mem : TTree → List Nat
  | TTree.nil => []
  | TTree.node i rg c0 c1 => i :: (rg ++ (mem c0 ++ mem c1))

/-- `ringOk st k first prev rest`: the `sibling(true)` chain continues
from `prev` through `rest` and closes back at `first`, with matching
`sibling(false)` back links; every listed member is a secondary sibling
(null parent, no children) carrying key `k`. -/
def ringOk (st : Store) (k : Nat) (first : Nat) : Nat → List Nat → Bool
  | prev, [] => (st prev).sib1 == first && (st first).sib0 == prev
  | prev, x :: xs =>
    (st prev).sib1 == x && (st x).sib0 == prev && (st x).parent == PRef.null
      && (st x).child0 == none && (st x).child1 == none && (st x).key == k
      && ringOk st k first x xs

/-- `reprT st level hi t`: the store realises branch tree `t` whose root
sits at bit level `level` with path prefix `hi` (all keys in the subtree
satisfy `key >>> level = hi`; a child at direction `d` extends the prefix
to `2 * hi + d` one level down, matching the checker's per-level key-bit
assertions). -/
def reprT (st : Store) : Nat → Nat → TTree → Bool
  | _, _, TTree.nil => true
  | level, hi, TTree.node i rg c0 c1 =>
    ((st i).key >>> level == hi)
      && ringOk st ((st i).key) i i rg
      && (match c0 with
          | TTree.nil => (st i).child0 == none
          | TTree.node j _ _ _ =>
            decide (0 < level) && (st i).child0 == some j && (st j).parent == PRef.node i)
      && (match c1 with
          | TTree.nil => (st i).child1 == none
          | TTree.node j _ _ _ =>
            decide (0 < level) && (st i).child1 == some j && (st j).parent == PRef.node i)
      && reprT st (level - 1) (2 * hi) c0
      && reprT st (level - 1) (2 * hi + 1) c1

/-- Head slot `b` matches branch tree `t`: empty slot for `nil`, else the
slot holds the root, the root's parent word is the slot tag, and the
subtree is realised at level `b` with prefix 1. -/
def branchOk (st : Store) (h : Head) (b : Nat) : TTree → Bool
  | TTree.nil => h.children b == none
  | TTree.node i rg c0 c1 =>
    h.children b == some i && (st i).parent == PRef.index b
      && reprT st b 1 (TTree.node i rg c0 c1)

/-- All item ids of a branch forest. -/
def allMem (F : List TTree) : List Nat := F.foldr (fun t acc => mem t ++ acc) []

/-- The whole index is realised by the forest `F` (one tree per head
slot): every slot matches, and the recorded count is the exact number of
reachable items (the checker's final count assertions) and fits the
`cw`-bit count word. -/
def TrieRepr (w cw : Nat) (st : Store) (h : Head) (F : List TTree) : Prop :=
  0 < w ∧ F.length = w ∧ (∀ b, b < w → branchOk st h b (F.getD b TTree.nil) = true)
    ∧ h.count = (allMem F).length ∧ h.count < 2 ^ cw

/-! ## Sibling-ring predicates and walks -/

/-- `ringLinked st l`: consecutive members of `l`, taken cyclically
(including the wrap-around from the last back to the first), are linked
by `sibling(true)` forward and `sibling(false)` backward. -/
def ringLinked (st : Store) (l : List Nat) : Prop :=
  List.Chain' (fun a b => (st a).sib1 = b ∧ (st b).sib0 = a) (l ++ l.take 1)

/-- Iterate `sibling(true)` `n` times. -/
def iterSib1 (st : Store) : Nat → Nat → Nat
  | 0, i => i
  | n + 1, i => iterSib1 st n ((st i).sib1)

/-- Insert each listed item in order. -/
def insertAll (cw : Nat) (st : Store) (h : Head) (ids : List Nat) :
    Option (Store × Head) :=
  ids.foldl (insStep cw) (some (st, h))

/-- The state after inserting keys 3 then 2 into an empty 2-bit index. -/
def stateB : Store × Head := runB.getD (storeB, emptyHead)

/-- A saturated one-item index at key width 1 and count width 1: item 0
keyed 1 occupies head slot 0 and the 1-bit count is at its maximum. -/
def stFull : Store := fun _ => ⟨PRef.index 0, none, none, 0, 0, 1⟩

/-- The head record of the saturated one-item index. -/
def hFull : Head := ⟨fun b => if b = 0 then some 0 else none, 1, false⟩

/-! # Theorems -/

/-! ## Reading through store updates -/

@[simp] theorem setSib_key (st : Store) (i : Nat) (dir : Bool) (v j : Nat) :
    ((setSib st i dir v) j).key = (st j).key := by
  by_cases hj : j = i <;> cases dir <;> simp [setSib, hj]

@[simp] theorem setSib_parent (st : Store) (i : Nat) (dir : Bool) (v j : Nat) :
    ((setSib st i dir v) j).parent = (st j).parent := by
  by_cases hj : j = i <;> cases dir <;> simp [setSib, hj]

@[simp] theorem setSib_child0 (st : Store) (i : Nat) (dir : Bool) (v j : Nat) :
    ((setSib st i dir v) j).child0 = (st j).child0 := by
  by_cases hj : j = i <;> cases dir <;> simp [setSib, hj]

@[simp] theorem setSib_child1 (st : Store) (i : Nat) (dir : Bool) (v j : Nat) :
    ((setSib st i dir v) j).child1 = (st j).child1 := by
  by_cases hj : j = i <;> cases dir <;> simp [setSib, hj]

@[simp] theorem setSib1_sib0 (st : Store) (i v j : Nat) :
    ((setSib st i true v) j).sib0 = (st j).sib0 := by
  by_cases hj : j = i <;> simp [setSib, hj]

@[simp] theorem setSib0_sib1 (st : Store) (i v j : Nat) :
    ((setSib st i false v) j).sib1 = (st j).sib1 := by
  by_cases hj : j = i <;> simp [setSib, hj]

@[simp] theorem setSib1_sib1_eq (st : Store) (i v : Nat) :
    ((setSib st i true v) i).sib1 = v := by simp [setSib]

@[simp] theorem setSib0_sib0_eq (st : Store) (i v : Nat) :
    ((setSib st i false v) i).sib0 = v := by simp [setSib]

@[simp] theorem setSib1_sib1_ne (st : Store) (i v j : Nat) (hj : j ≠ i) :
    ((setSib st i true v) j).sib1 = (st j).sib1 := by simp [setSib, hj]

@[simp] theorem setSib0_sib0_ne (st : Store) (i v j : Nat) (hj : j ≠ i) :
    ((setSib st i false v) j).sib0 = (st j).sib0 := by simp [setSib, hj]

@[simp] theorem setParent_key (st : Store) (i : Nat) (p : PRef) (j : Nat) :
    ((setParent st i p) j).key = (st j).key := by
  by_cases hj : j = i <;> simp [setParent, hj]

@[simp] theorem setParent_sib0 (st : Store) (i : Nat) (p : PRef) (j : Nat) :
    ((setParent st i p) j).sib0 = (st j).sib0 := by
  by_cases hj : j = i <;> simp [setParent, hj]

@[simp] theorem setParent_sib1 (st : Store) (i : Nat) (p : PRef) (j : Nat) :
    ((setParent st i p) j).sib1 = (st j).sib1 := by
  by_cases hj : j = i <;> simp [setParent, hj]

@[simp] theorem setParent_child0 (st : Store) (i : Nat) (p : PRef) (j : Nat) :
    ((setParent st i p) j).child0 = (st j).child0 := by
  by_cases hj : j = i <;> simp [setParent, hj]

@[simp] theorem setParent_child1 (st : Store) (i : Nat) (p : PRef) (j : Nat) :
    ((setParent st i p) j).child1 = (st j).child1 := by
  by_cases hj : j = i <;> simp [setParent, hj]

@[simp] theorem setParent_parent_eq (st : Store) (i : Nat) (p : PRef) :
    ((setParent st i p) i).parent = p := by simp [setParent]

@[simp] theorem setParent_parent_ne (st : Store) (i : Nat) (p : PRef) (j : Nat) (hj : j ≠ i) :
    ((setParent st i p) j).parent = (st j).parent := by simp [setParent, hj]

@[simp] theorem setChild_key (st : Store) (i : Nat) (dir : Bool) (v : Option Nat) (j : Nat) :
    ((setChild st i dir v) j).key = (st j).key := by
  by_cases hj : j = i <;> cases dir <;> simp [setChild, hj]

@[simp] theorem setChild_parent (st : Store) (i : Nat) (dir : Bool) (v : Option Nat) (j : Nat) :
    ((setChild st i dir v) j).parent = (st j).parent := by
  by_cases hj : j = i <;> cases dir <;> simp [setChild, hj]

@[simp] theorem setChild_sib0 (st : Store) (i : Nat) (dir : Bool) (v : Option Nat) (j : Nat) :
    ((setChild st i dir v) j).sib0 = (st j).sib0 := by
  by_cases hj : j = i <;> cases dir <;> simp [setChild, hj]

@[simp] theorem setChild_sib1 (st : Store) (i : Nat) (dir : Bool) (v : Option Nat) (j : Nat) :
    ((setChild st i dir v) j).sib1 = (st j).sib1 := by
  by_cases hj : j = i <;> cases dir <;> simp [setChild, hj]

@[simp] theorem setChild1_child0 (st : Store) (i : Nat) (v : Option Nat) (j : Nat) :
    ((setChild st i true v) j).child0 = (st j).child0 := by
  by_cases hj : j = i <;> simp [setChild, hj]

@[simp] theorem setChild0_child1 (st : Store) (i : Nat) (v : Option Nat) (j : Nat) :
    ((setChild st i false v) j).child1 = (st j).child1 := by
  by_cases hj : j = i <;> simp [setChild, hj]

@[simp] theorem setChild0_child0_eq (st : Store) (i : Nat) (v : Option Nat) :
    ((setChild st i false v) i).child0 = v := by simp [setChild]

@[simp] theorem setChild1_child1_eq (st : Store) (i : Nat) (v : Option Nat) :
    ((setChild st i true v) i).child1 = v := by simp [setChild]

@[simp] theorem setChild0_child0_ne (st : Store) (i : Nat) (v : Option Nat) (j : Nat) (hj : j ≠ i) :
    ((setChild st i false v) j).child0 = (st j).child0 := by simp [setChild, hj]

@[simp] theorem setChild1_child1_ne (st : Store) (i : Nat) (v : Option Nat) (j : Nat) (hj : j ≠ i) :
    ((setChild st i true v) j).child1 = (st j).child1 := by simp [setChild, hj]

/-! ## Chain transfer along adjacency -/

/-- Transfer a `Chain'` along a pairwise implication that may use the
position of the pair: first components range over `l.dropLast`, second
components over `l.tail`. -/
theorem chain'_imp_adj {α : Type} {R S : α → α → Prop} :
    ∀ l : List α, (∀ x y, x ∈ l.dropLast → y ∈ l.tail → R x y → S x y) →
      List.Chain' R l → List.Chain' S l := by
  intro l
  induction l with
  | nil => intro _ _; exact List.chain'_nil
  | cons x t ih =>
    intro htr hch
    cases t with
    | nil => exact List.chain'_singleton x
    | cons y t' =>
      rw [List.chain'_cons] at hch ⊢
      refine ⟨htr x y (by simp) (by simp) hch.1, ?_⟩
      refine ih (fun u v hu hv hr => htr u v ?_ ?_ hr) hch.2
      · rcases (y :: t').dropLast with _ | _ <;> simp_all [List.dropLast]
      · exact List.mem_cons_of_mem _ hv

/-! ## Unfolding the operations under known conditions -/

theorem removeSplice_eq (st : Store) (r : Nat) :
    removeSplice st r
      = (setSib (setSib st ((st r).sib0) true ((st r).sib1)) ((st r).sib1) false
          ((st r).sib0), (st r).sib1) := by
  have h1 : ((setSib st ((st r).sib0) true ((st r).sib1)) r).sib1 = (st r).sib1 := by
    by_cases hr : r = (st r).sib0
    · conv_lhs => rw [← hr]
      exact setSib1_sib1_eq _ _ _
    · exact setSib1_sib1_ne st _ _ r hr
  unfold removeSplice
  dsimp only
  rw [h1, setSib1_sib0]

theorem trieinsert_slot_empty (cw : Nat) (st : Store) (h : Head) (r : Nat)
    (hov : h.count + 1 < 2 ^ cw)
    (hslot : h.children (bitscanr ((st r).key)) = none) :
    trieinsert cw st h r
      = some (setParent (insInit st r) r (PRef.index (bitscanr ((st r).key))),
          incrSize cw (setHChild h (bitscanr ((st r).key)) (some r)), true) := by
  unfold trieinsert
  dsimp only
  rw [if_neg (by rw [Nat.mod_eq_of_lt hov]; omega), hslot]

theorem trieinsert_equal_root (cw : Nat) (st : Store) (h : Head) (r n0 : Nat)
    (hov : h.count + 1 < 2 ^ cw)
    (hslot : h.children (bitscanr ((st r).key)) = some n0)
    (hkeq : ((insInit st r) n0).key = (st r).key) :
    trieinsert cw st h r
      = some (insRingSplice (insInit st r) r n0, incrSize cw h, true) := by
  unfold trieinsert
  dsimp only
  rw [if_neg (by rw [Nat.mod_eq_of_lt hov]; omega), hslot]
  dsimp only
  unfold insDescend
  rw [if_pos hkeq]

theorem triefind_empty_slot (st : Store) (h : Head) (k : Nat)
    (hslot : h.children (bitscanr k) = none) : triefind st h k = none := by
  unfold triefind
  rw [hslot]

theorem triefind_at_root (st : Store) (h : Head) (k n0 : Nat)
    (hslot : h.children (bitscanr k) = some n0) (hkey : (st n0).key = k) :
    triefind st h k = some n0 := by
  unfold triefind
  rw [hslot]
  dsimp only
  unfold findDescend
  rw [if_pos hkey]

/-! ## Ring walks -/

theorem ringCount_walk (st : Store) (p : Nat) :
    ∀ (l : List Nat) (fuel : Nat), p ∉ l → l.length < fuel →
      List.Chain' (fun a b => (st a).sib1 = b) (l ++ [p]) →
      ringCount st p (l.headD p) fuel = some l.length := by
  intro l
  induction l with
  | nil =>
    intro fuel _ hf _
    cases fuel with
    | zero => omega
    | succ f => simp [ringCount]
  | cons x xs ih =>
    intro fuel hp hf hch
    cases fuel with
    | zero => omega
    | succ f =>
      have hx : x ≠ p := fun hh => hp (hh ▸ List.mem_cons_self x xs)
      rw [List.cons_append] at hch
      have hch' := (List.chain'_cons'.1 hch)
      have hlink : (st x).sib1 = (xs ++ [p]).headD p := by
        have h1 := hch'.1
        cases xs with
        | nil => exact h1 p (by simp)
        | cons y ys => exact h1 y (by simp)
      show ringCount st p x (f + 1) = some (x :: xs).length
      unfold ringCount
      rw [if_neg hx, hlink]
      have hxs : (xs ++ [p]).headD p = xs.headD p := by cases xs <;> simp
      rw [hxs, ih f (fun hm => hp (List.mem_cons_of_mem _ hm)) (by simp at hf ⊢; omega)
        hch'.2]
      simp

theorem iterSib1_add (st : Store) (a b x : Nat) :
    iterSib1 st (a + b) x = iterSib1 st b (iterSib1 st a x) := by
  induction a generalizing x with
  | zero => simp [iterSib1]
  | succ a ih =>
    have : a + 1 + b = (a + b) + 1 := by omega
    rw [this]
    show iterSib1 st (a + b) ((st x).sib1) = _
    rw [ih]
    rfl

theorem iterSib1_walk (st : Store) :
    ∀ (l : List Nat) (x : Nat), List.Chain' (fun a b => (st a).sib1 = b) (x :: l) →
      iterSib1 st l.length x = (x :: l).getLast (by simp) := by
  intro l
  induction l with
  | nil => intro x _; rfl
  | cons y ys ih =>
    intro x hch
    rw [List.chain'_cons] at hch
    show iterSib1 st ys.length ((st x).sib1) = _
    rw [hch.1, ih y hch.2]
    simp [List.getLast_cons]

/-! ## Reading through `insInit` -/

@[simp] theorem insInit_key (st : Store) (r j : Nat) :
    ((insInit st r) j).key = (st j).key := by simp [insInit]

@[simp] theorem insInit_parent_eq (st : Store) (r : Nat) :
    ((insInit st r) r).parent = PRef.null := by simp [insInit]

@[simp] theorem insInit_parent_ne (st : Store) (r j : Nat) (hj : j ≠ r) :
    ((insInit st r) j).parent = (st j).parent := by simp [insInit, hj]

@[simp] theorem insInit_child0_eq (st : Store) (r : Nat) :
    ((insInit st r) r).child0 = none := by simp [insInit]

@[simp] theorem insInit_child1_eq (st : Store) (r : Nat) :
    ((insInit st r) r).child1 = none := by simp [insInit]

@[simp] theorem insInit_child0_ne (st : Store) (r j : Nat) (hj : j ≠ r) :
    ((insInit st r) j).child0 = (st j).child0 := by simp [insInit, hj]

@[simp] theorem insInit_child1_ne (st : Store) (r j : Nat) (hj : j ≠ r) :
    ((insInit st r) j).child1 = (st j).child1 := by simp [insInit, hj]

@[simp] theorem insInit_sib0_eq (st : Store) (r : Nat) :
    ((insInit st r) r).sib0 = r := by simp [insInit]

@[simp] theorem insInit_sib1_eq (st : Store) (r : Nat) :
    ((insInit st r) r).sib1 = r := by simp [insInit]

@[simp] theorem insInit_sib0_ne (st : Store) (r j : Nat) (hj : j ≠ r) :
    ((insInit st r) j).sib0 = (st j).sib0 := by simp [insInit, hj]

@[simp] theorem insInit_sib1_ne (st : Store) (r j : Nat) (hj : j ≠ r) :
    ((insInit st r) j).sib1 = (st j).sib1 := by simp [insInit, hj]

theorem decrSize_count (cw n : Nat) (h : Head) (hc : h.count = n) (h1 : 1 ≤ n)
    (h2 : n ≤ 2 ^ cw) : (decrSize cw h).count = n - 1 := by
  show (h.count + (2 ^ cw - 1)) % 2 ^ cw = n - 1
  have hpos := Nat.two_pow_pos cw
  rw [hc]
  rw [show n + (2 ^ cw - 1) = (n - 1) + 2 ^ cw by omega, Nat.add_mod_right,
    Nat.mod_eq_of_lt (by omega)]

theorem head_ne_tail_of_nodup {l : List Nat} (hnd : l.Nodup) {a y : Nat}
    (hh : l.head? = some a) (hy : y ∈ l.tail) : y ≠ a := by
  cases l with
  | nil => cases hy
  | cons b t =>
    simp only [List.head?_cons, Option.some.injEq] at hh
    subst hh
    exact fun heq => (List.nodup_cons.1 hnd).1 (heq ▸ hy)

/-- Removing any member of a pure same-key ring: the three removal cases
that can arise (secondary splice, sibling promotion, childless detach)
all yield the ring with that member deleted. -/
theorem getLast_of_concat (l : List Nat) (a : Nat) :
    (l ++ [a]).getLast (by simp) = a := by
  have h2 := List.getLast?_eq_getLast (l ++ [a]) (by simp)
  rw [List.getLast?_concat] at h2
  exact (Option.some_injective _ h2).symm

/-- Following `sibling(true)` as many times as the ring has members leads
from any member back to itself. -/
theorem ringLinked_iter (st : Store) (l : List Nat) (hrl : ringLinked st l)
    (m : Nat) (hm : m ∈ l) : iterSib1 st l.length m = m := by
  have hch : List.Chain' (fun a b => (st a).sib1 = b) (l ++ l.take 1) := by
    have hr := hrl
    unfold ringLinked at hr
    exact hr.imp (fun a b hab => hab.1)
  obtain ⟨pre, suf, hsplit⟩ := List.append_of_mem hm
  subst hsplit
  cases pre with
  | nil =>
    simp only [List.nil_append] at hch ⊢
    have hch1 : List.Chain' (fun a b => (st a).sib1 = b) (m :: (suf ++ [m])) := hch
    have hw := iterSib1_walk st (suf ++ [m]) m hch1
    rw [show (m :: suf).length = (suf ++ [m]).length by simp, hw]
    exact getLast_of_concat (m :: suf) m
  | cons p0 pre' =>
    have hchfull : List.Chain' (fun a b => (st a).sib1 = b)
        ((p0 :: pre') ++ ((m :: suf) ++ [p0])) := by
      have hassoc : ((p0 :: pre') ++ m :: suf) ++ List.take 1 ((p0 :: pre') ++ m :: suf)
          = (p0 :: pre') ++ ((m :: suf) ++ [p0]) := by
        simp
      rw [hassoc] at hch
      exact hch
    have h1 := List.chain'_append.1 hchfull
    have hA := h1.1
    have hB : List.Chain' (fun a b => (st a).sib1 = b) (m :: (suf ++ [p0])) := h1.2.1
    have hlink := h1.2.2
    have hw1 := iterSib1_walk st (suf ++ [p0]) m hB
    have hlinkm : (st ((p0 :: pre').getLast (by simp))).sib1 = m := by
      refine hlink ((p0 :: pre').getLast (by simp)) ?_ m (by simp)
      simp [List.getLast?_eq_getLast (p0 :: pre') (by simp)]
    have hch2 : List.Chain' (fun a b => (st a).sib1 = b) ((p0 :: pre') ++ [m]) := by
      refine List.chain'_append.2 ⟨hA, List.chain'_singleton m, ?_⟩
      intro x hx y hy
      rw [List.getLast?_eq_getLast (p0 :: pre') (by simp)] at hx
      simp only [Option.mem_def, Option.some.injEq, List.head?_cons] at hx hy
      rw [← hx, ← hy]
      exact hlinkm
    have hch2' : List.Chain' (fun a b => (st a).sib1 = b) (p0 :: (pre' ++ [m])) := hch2
    have hw2 := iterSib1_walk st (pre' ++ [m]) p0 hch2'
    have hlen : ((p0 :: pre') ++ m :: suf).length
        = (suf ++ [p0]).length + (pre' ++ [m]).length := by
      simp
      omega
    rw [hlen, iterSib1_add, hw1]
    have hgl1 : (m :: (suf ++ [p0])).getLast (by simp) = p0 :=
      getLast_of_concat (m :: suf) p0
    rw [hgl1, hw2]
    exact getLast_of_concat (p0 :: pre') m

/-! ## Bit-scan arithmetic -/

theorem bitscanAux_bounds :
    ∀ fuel n, 0 < n → n ≤ fuel →
      2 ^ bitscanAux n fuel ≤ n ∧ n < 2 ^ (bitscanAux n fuel + 1) := by
  intro fuel
  induction fuel with
  | zero => intro n h1 h2; omega
  | succ f ih =>
    intro n h1 h2
    have hunf : bitscanAux n (f + 1)
        = if 2 ≤ n then bitscanAux (n / 2) f + 1 else 0 := by
      simp only [bitscanAux]
    by_cases h : 2 ≤ n
    · have hrec := ih (n / 2) (by omega) (by omega)
      rw [hunf, if_pos h]
      have e1 : 2 ^ (bitscanAux (n / 2) f + 1) = 2 ^ bitscanAux (n / 2) f * 2 := by
        rw [Nat.pow_succ]
      have e2 : 2 ^ (bitscanAux (n / 2) f + 1 + 1)
          = 2 ^ (bitscanAux (n / 2) f + 1) * 2 := by
        rw [Nat.pow_succ]
      omega
    · have hn1 : n = 1 := by omega
      subst hn1
      rw [hunf, if_neg h]
      simp

theorem bitscanr_bounds (v : Nat) (h : 0 < v) :
    2 ^ bitscanr v ≤ v ∧ v < 2 ^ (bitscanr v + 1) :=
  bitscanAux_bounds v v h le_rfl

theorem bitscanr_unique (v b : Nat) (h1 : 2 ^ b ≤ v) (h2 : v < 2 ^ (b + 1)) :
    bitscanr v = b := by
  have hv : 0 < v := lt_of_lt_of_le (Nat.two_pow_pos b) h1
  obtain ⟨hb1, hb2⟩ := bitscanr_bounds v hv
  rcases Nat.lt_trichotomy (bitscanr v) b with hlt | heq | hgt
  · exfalso
    have : bitscanr v + 1 ≤ b := hlt
    have := Nat.pow_le_pow_right (show 1 ≤ 2 by omega) this
    omega
  · exact heq
  · exfalso
    have : b + 1 ≤ bitscanr v := hgt
    have := Nat.pow_le_pow_right (show 1 ≤ 2 by omega) this
    omega

theorem bitscanr_lt_of_lt (v w : Nat) (hw : 0 < w) (h : v < 2 ^ w) : bitscanr v < w := by
  rcases Nat.eq_zero_or_pos v with h0 | h0
  · subst h0
    show bitscanr 0 < w
    simpa [bitscanr, bitscanAux] using hw
  · obtain ⟨hb1, -⟩ := bitscanr_bounds v h0
    by_contra hcon
    push_neg at hcon
    have := Nat.pow_le_pow_right (show 1 ≤ 2 by omega) hcon
    omega

theorem shiftr_one_of_bounds (v b : Nat) (h1 : 2 ^ b ≤ v) (h2 : v < 2 ^ (b + 1)) :
    v >>> b = 1 := by
  rw [Nat.shiftRight_eq_div_pow]
  have hpos := Nat.two_pow_pos b
  have h3 : 1 ≤ v / 2 ^ b := (Nat.one_le_div_iff hpos).2 h1
  have h4 : v / 2 ^ b < 2 := by
    rw [Nat.div_lt_iff_lt_mul hpos]
    rw [Nat.pow_succ] at h2
    omega
  omega

theorem shiftr_succ_div (x l : Nat) (hl : 0 < l) :
    x >>> (l - 1) = 2 * (x >>> l) + (x >>> (l - 1)) % 2 := by
  rw [Nat.shiftRight_eq_div_pow, Nat.shiftRight_eq_div_pow]
  have hstep : x / 2 ^ l = x / 2 ^ (l - 1) / 2 := by
    conv_lhs => rw [show l = (l - 1) + 1 by omega]
    rw [Nat.pow_succ, ← Nat.div_div_eq_div_mul]
  rw [hstep]
  omega

theorem and_pow_two_mod (x i : Nat) : (x &&& 2 ^ i ≠ 0) ↔ (x >>> i) % 2 = 1 := by
  rw [Nat.and_two_pow, Nat.shiftRight_eq_div_pow]
  have ht : x.testBit i = decide (x / 2 ^ i % 2 = 1) := Nat.testBit_to_div_mod
  cases h : x.testBit i with
  | true =>
    rw [h] at ht
    have hmod : x / 2 ^ i % 2 = 1 := of_decide_eq_true ht.symm
    simp [h, hmod, (Nat.two_pow_pos i).ne']
  | false =>
    rw [h] at ht
    have hmod : ¬ (x / 2 ^ i % 2 = 1) := of_decide_eq_false ht.symm
    simp [h, hmod]

theorem keybit_half (level : Nat) (hl : 0 < level) :
    2 ^ level / 2 = 2 ^ (level - 1) := by
  rw [show level = (level - 1) + 1 by omega, Nat.pow_succ]
  simp

theorem shiftr_pred_of_bit (x l hi : Nat) (hl : 0 < l) (hx : x >>> l = hi) :
    (x &&& 2 ^ (l - 1) ≠ 0 → x >>> (l - 1) = 2 * hi + 1)
      ∧ (¬ (x &&& 2 ^ (l - 1) ≠ 0) → x >>> (l - 1) = 2 * hi) := by
  have hs := shiftr_succ_div x l hl
  rw [hx] at hs
  constructor
  · intro hb
    have := (and_pow_two_mod x (l - 1)).1 hb
    omega
  · intro hb
    have hmod : (x >>> (l - 1)) % 2 ≠ 1 := fun hc => hb ((and_pow_two_mod x (l - 1)).2 hc)
    omega

/-! ## Facts extracted from `reprT` -/

theorem ringOk_props (st : Store) (k first : Nat) :
    ∀ l prev, ringOk st k first prev l = true →
      ∀ x ∈ l, (st x).key = k ∧ (st x).parent = PRef.null
        ∧ (st x).child0 = none ∧ (st x).child1 = none := by
  intro l
  induction l with
  | nil => intro prev _ x hx; cases hx
  | cons y ys ih =>
    intro prev hok x hx
    unfold ringOk at hok
    simp only [Bool.and_eq_true, beq_iff_eq] at hok
    rcases List.mem_cons.1 hx with hh | hh
    · subst hh
      exact ⟨hok.1.2, hok.1.1.1.1.2, hok.1.1.1.2, hok.1.1.2⟩
    · exact ih y hok.2 x hh

theorem reprT_node_parts (st : Store) (level hi i : Nat) (rg : List Nat)
    (c0 c1 : TTree) (h : reprT st level hi (TTree.node i rg c0 c1) = true) :
    (st i).key >>> level = hi
      ∧ ringOk st ((st i).key) i i rg = true
      ∧ (match c0 with
         | TTree.nil => (st i).child0 = none
         | TTree.node j _ _ _ =>
           0 < level ∧ (st i).child0 = some j ∧ (st j).parent = PRef.node i)
      ∧ (match c1 with
         | TTree.nil => (st i).child1 = none
         | TTree.node j _ _ _ =>
           0 < level ∧ (st i).child1 = some j ∧ (st j).parent = PRef.node i)
      ∧ reprT st (level - 1) (2 * hi) c0 = true
      ∧ reprT st (level - 1) (2 * hi + 1) c1 = true := by
  unfold reprT at h
  simp only [Bool.and_eq_true, beq_iff_eq, decide_eq_true_eq] at h
  obtain ⟨⟨⟨⟨⟨h1, h2⟩, h3⟩, h4⟩, h5⟩, h6⟩ := h
  refine ⟨h1, h2, ?_, ?_, h5, h6⟩
  · cases c0 with
    | nil => simpa using h3
    | node j a b c =>
      have h3' : (0 < level ∧ (st i).child0 = some j)
          ∧ (st j).parent = PRef.node i := by simpa using h3
      exact ⟨h3'.1.1, h3'.1.2, h3'.2⟩
  · cases c1 with
    | nil => simpa using h4
    | node j a b c =>
      have h4' : (0 < level ∧ (st i).child1 = some j)
          ∧ (st j).parent = PRef.node i := by simpa using h4
      exact ⟨h4'.1.1, h4'.1.2, h4'.2⟩

/-- Every member of a represented subtree carries the subtree's key
prefix. -/
theorem reprT_mem_key (st : Store) :
    ∀ (t : TTree) (level hi : Nat), reprT st level hi t = true →
      ∀ x ∈ mem t, (st x).key >>> level = hi := by
  intro t
  induction t with
  | nil => intro level hi _ x hx; cases hx
  | node i rg c0 c1 ih0 ih1 =>
    intro level hi h x hx
    obtain ⟨h1, h2, h3, h4, h5, h6⟩ := reprT_node_parts st level hi i rg c0 c1 h
    have hlift : ∀ y l', 0 < level → (st y).key >>> (level - 1) = l' →
        (st y).key >>> level = l' / 2 := by
      intro y l' hl hy
      rw [Nat.shiftRight_eq_div_pow] at hy ⊢
      rw [show level = (level - 1) + 1 by omega, Nat.pow_succ, ← Nat.div_div_eq_div_mul,
        hy]
    rcases List.mem_cons.1 hx with hh | hh
    · subst hh; exact h1
    · rcases List.mem_append.1 hh with hh' | hh'
      · have := (ringOk_props st ((st i).key) i rg i h2 x hh').1
        rw [this]; exact h1
      · rcases List.mem_append.1 hh' with hc | hc
        · have hl : 0 < level := by
            cases c0 with
            | nil => cases hc
            | node j a b c => exact h3.1
          have := ih0 (level - 1) (2 * hi) h5 x hc
          have := hlift x (2 * hi) hl this
          rwa [Nat.mul_div_cancel_left hi (by omega : 0 < 2)] at this
        · have hl : 0 < level := by
            cases c1 with
            | nil => cases hc
            | node j a b c => exact h4.1
          have := ih1 (level - 1) (2 * hi + 1) h6 x hc
          have h7 := hlift x (2 * hi + 1) hl this
          rwa [show (2 * hi + 1) / 2 = hi by omega] at h7

/-- `reprT` only reads the store at the member ids of the tree. -/
theorem reprT_congr (st1 st2 : Store) :
    ∀ (t : TTree) (level hi : Nat), (∀ x ∈ mem t, st1 x = st2 x) →
      reprT st1 level hi t = reprT st2 level hi t := by
  have hring : ∀ (l : List Nat) (k first prev : Nat),
      (∀ x ∈ l, st1 x = st2 x) → st1 first = st2 first → st1 prev = st2 prev →
      ringOk st1 k first prev l = ringOk st2 k first prev l := by
    intro l
    induction l with
    | nil =>
      intro k first prev _ hf hp
      unfold ringOk
      rw [hf, hp]
    | cons y ys ih =>
      intro k first prev hmem hf hp
      unfold ringOk
      rw [hp, hmem y (List.mem_cons_self y ys),
        ih k first y (fun x hx => hmem x (List.mem_cons_of_mem y hx)) hf
          (hmem y (List.mem_cons_self y ys))]
  intro t
  induction t with
  | nil => intro level hi _; rfl
  | node i rg c0 c1 ih0 ih1 =>
    intro level hi hmem
    have hi' : st1 i = st2 i := hmem i (List.mem_cons_self _ _)
    have hrg : ∀ x ∈ rg, st1 x = st2 x :=
      fun x hx => hmem x (List.mem_cons_of_mem i (List.mem_append_left _ hx))
    have hm0 : ∀ x ∈ mem c0, st1 x = st2 x :=
      fun x hx => hmem x (List.mem_cons_of_mem i
        (List.mem_append_right rg (List.mem_append_left _ hx)))
    have hm1 : ∀ x ∈ mem c1, st1 x = st2 x :=
      fun x hx => hmem x (List.mem_cons_of_mem i
        (List.mem_append_right rg (List.mem_append_right _ hx)))
    unfold reprT
    rw [hi', hring rg ((st2 i).key) i i hrg hi' hi', ih0 _ _ hm0, ih1 _ _ hm1]
    cases c0 with
    | nil => cases c1 with
      | nil => rfl
      | node j a b c =>
        dsimp only
        rw [hm1 j (List.mem_cons_self _ _)]
    | node j a b c =>
      cases c1 with
      | nil =>
        dsimp only
        rw [hm0 j (List.mem_cons_self _ _)]
      | node j' a' b' c' =>
        dsimp only
        rw [hm0 j (List.mem_cons_self _ _), hm1 j' (List.mem_cons_self _ _)]

/-- C7: for the default item accessor the tagged parent encoding
round-trips: for every bit index `b` below the key bit-width, after
`set_parent_is_index(b)` the item reads back `parent_is_index() = true`
and `bit_index() = b`; after `set_parent(p)` with a non-null pointer of
at least 4-byte-aligned storage, `parent_is_index() = false` and
`parent()` returns `p`. -/
theorem tagged_parent_roundtrip (w b p : Nat) (hw : w ≤ 2 ^ 30) (hb : b < w)
    (hp4 : p % 4 = 0) (hp0 : p ≠ 0) (hpw : p < 2 ^ ptrBits) :
    (tagParentIsIndex (tagIndex b) = true ∧ tagBitIndex (tagIndex b) = b)
      ∧ tagParentIsIndex (tagSetParent p) = false
      ∧ tagParent (tagSetParent p) = p := by
  have hb' : b < 2 ^ 30 := lt_of_lt_of_le hb hw
  have h1 : b * 4 + 3 < 2 ^ 32 := by norm_num at hb' ⊢; omega
  have h2 : b * 4 + 3 < 2 ^ 64 := lt_trans h1 (by norm_num)
  have hpw' : p < 2 ^ 64 := hpw
  refine ⟨⟨?_, ?_⟩, ?_, ?_⟩
  · simp only [tagParentIsIndex, tagIndex, ptrBits, Nat.mod_eq_of_lt h2,
      decide_eq_true_eq]
    omega
  · simp only [tagBitIndex, tagIndex, ptrBits, Nat.mod_eq_of_lt h2, Nat.mod_eq_of_lt h1]
    omega
  · simp only [tagParentIsIndex, tagSetParent, ptrBits, Nat.mod_eq_of_lt hpw',
      decide_eq_false_iff_not]
    omega
  · simp only [tagParent, tagSetParent, ptrBits, Nat.mod_eq_of_lt hpw']

/-- Witness for C7 at `w = 64`, `b = 5`, `p = 8`. -/
theorem tagged_parent_roundtrip_witness :
    (tagParentIsIndex (tagIndex 5) = true ∧ tagBitIndex (tagIndex 5) = 5)
      ∧ tagParentIsIndex (tagSetParent 8) = false
      ∧ tagParent (tagSetParent 8) = 8 :=
  tagged_parent_roundtrip 64 5 8 (by norm_num) (by norm_num) (by norm_num)
    (by norm_num) (by norm_num [ptrBits])

/-- C8: `clear()` resets the head record to empty — afterwards `size()`
is 0, `empty()` holds and every one of the `w` head child slots is null —
while writing no field of any indexed item (the store component flows
through unchanged); the nobble flag is also untouched. -/
theorem clear_resets (w : Nat) (st : Store) (h : Head) :
    (clearState w st h).1 = st
      ∧ sizeOp (clearState w st h).2 = 0
      ∧ emptyOp (clearState w st h).2 = true
      ∧ (∀ b, b < w → (clearState w st h).2.children b = none)
      ∧ (clearState w st h).2.nobbledir = h.nobbledir := by
  refine ⟨rfl, rfl, rfl, ?_, rfl⟩
  intro b hb
  simp [clearState, clearOp, hb]

/-- Witness for C8 at `w = 2` on a concrete store and head. -/
theorem clear_resets_witness :
    (clearState 2 storeB emptyHead).2.children 1 = none
      ∧ sizeOp (clearState 2 storeB emptyHead).2 = 0 :=
  ⟨(clear_resets 2 storeB emptyHead).2.2.2.1 1 (by norm_num),
    (clear_resets 2 storeB emptyHead).2.1⟩

/-- C10: the copy constructor and copy assignment are shallow: both copy
exactly the `w` head child slots (so the copy references the same item
ids as the original) and the count; no item field is written (the
operations act on head records only) and the nobble-direction flag is not
copied (it keeps the destination's or indeterminate value). -/
theorem copy_shallow (w : Nat) (junk dst src : Head) :
    (∀ b, b < w → (copyCtor w junk src).children b = src.children b)
      ∧ (copyCtor w junk src).count = src.count
      ∧ (copyCtor w junk src).nobbledir = junk.nobbledir
      ∧ (∀ b, b < w → (copyAssign w dst src).children b = src.children b)
      ∧ (copyAssign w dst src).count = src.count
      ∧ (copyAssign w dst src).nobbledir = dst.nobbledir := by
  refine ⟨?_, rfl, rfl, ?_, rfl, rfl⟩ <;>
    · intro b hb
      simp [copyCtor, copyAssign, hb]

/-- Witness for C10 at `w = 2` on concrete heads. -/
theorem copy_shallow_witness :
    (copyCtor 2 emptyHead (clearOp 2 emptyHead)).children 0
        = (clearOp 2 emptyHead).children 0
      ∧ (copyAssign 2 emptyHead (clearOp 2 emptyHead)).count
        = (clearOp 2 emptyHead).count :=
  ⟨(copy_shallow 2 emptyHead emptyHead (clearOp 2 emptyHead)).1 0 (by norm_num),
    (copy_shallow 2 emptyHead emptyHead (clearOp 2 emptyHead)).2.2.2.2.1⟩

/-- C9: `erase(const_iterator)` on a valid iterator returns an iterator
equal to its argument — still referring to the just-erased item — even
though the successor (`++ret`) is computed internally; a concrete state
shows the successor genuinely differs from the returned position. -/
theorem erase_returns_argument :
    (∀ (w cw : Nat) (dir : Int) (st : Store) (h : Head) (p : Nat),
        (eraseIt w cw dir st h (some p)).isSome = true →
        (eraseIt w cw dir st h (some p)).map (fun r => r.2.2) = some (some p))
      ∧ eraseSucc 2 stateB.1 stateB.2 (some 0) = some (some 1)
      ∧ (eraseIt 2 2 (-1) stateB.1 stateB.2 (some 0)).map (fun r => r.2.2)
          = some (some 0) := by
  refine ⟨?_, by decide, by decide⟩
  intro w cw dir st h p hs
  unfold eraseIt at hs ⊢
  cases htr : trieremove w cw dir st h (some p) with
  | none => rw [htr] at hs; exact Bool.noConfusion hs
  | some r => obtain ⟨st1, h1⟩ := r; rfl

/-- Witness for C9: the general clause applied at the concrete state. -/
theorem erase_returns_argument_witness :
    (eraseIt 2 2 (-1) stateB.1 stateB.2 (some 0)).map (fun r => r.2.2)
      = some (some 0) :=
  erase_returns_argument.1 2 2 (-1) stateB.1 stateB.2 0 (by decide)

/-- C5 (code bug): for a key absent from the index, `find` returns
`end()` and `erase(key)` feeds the null iterator pointer straight into
the removal routine, which dereferences it (`rlink.key()`,
`is_secondary_sibling()`) — modelled as the crash result `none` — instead
of being a safe no-op. -/
theorem erase_absent_key_crashes :
    triefind storeN emptyHead 1 = none
      ∧ (eraseK 4 4 (-1) storeN emptyHead 1).isSome = false
      ∧ (trieremove 4 4 (-1) storeN emptyHead none).isSome = false := by
  decide

/-- C4 (code bug): inserting the same key twice (items 0 and 1, both
keyed 5) yields `size() = 2` but `count(5) = 1`, and the sibling ring is
not circular: the primary's forward `sibling(true)` pointer still targets
itself — the tail write of the equal-key insert sits behind the
never-true garbled guard `if(nullptr = nodelink.sibling(true))` — so
following `sibling(true)` from the duplicate never returns to it; a third
same-key insert likewise leaves `count(5) = 1`. -/
theorem count_duplicate_inserts_wrong :
    ((insertAll 4 storeD emptyHead [0, 1]).map fun s =>
        (sizeOp s.2, countK s.1 s.2 5, (s.1 0).sib1, iterSib1 s.1 2 1))
      = some (2, some 1, 0, 0)
    ∧ ((insertAll 4 storeD emptyHead [0, 1, 2]).map fun s =>
        (sizeOp s.2, countK s.1 s.2 5, iterSib1 s.1 3 1, iterSib1 s.1 3 2))
      = some (3, some 1, 0, 0) := by
  decide

/-- C3 counterexample: in the concrete 2-bit index holding keys 3 and 2,
both items lie in head branch 1 (equal highest set bit), yet the forward
traversal from `begin()` yields keys 3 then 2 — not non-decreasing. -/
theorem branch_keys_not_sorted :
    (traversal 2 stateB.1 stateB.2).map (fun i => (stateB.1 i).key) = [3, 2]
      ∧ bitscanr 3 = 1 ∧ bitscanr 2 = 1
      ∧ ¬ List.Chain' (fun a b => a ≤ b) [3, 2] := by
  refine ⟨by decide, by decide, by decide, ?_⟩
  simp [List.chain'_cons]

/-! ## Insert succeeds on any represented index with room -/

/-- `insInit` touches only the inserted item's record. -/
theorem insInit_apply_ne (st : Store) (r j : Nat) (hj : j ≠ r) : insInit st r j = st j := by
  unfold insInit setSib setChild setParent
  simp [hj]

/-- Every member of the branch at slot `b` is a member of the forest. -/
theorem mem_allMem (F : List TTree) : ∀ b, b < F.length →
    ∀ x ∈ mem (F.getD b TTree.nil), x ∈ allMem F := by
  induction F with
  | nil => intro b hb; simp at hb
  | cons t F ih =>
    intro b hb x hx
    cases b with
    | zero =>
      have : allMem (t :: F) = mem t ++ allMem F := rfl
      rw [this]
      exact List.mem_append_left _ (by simpa using hx)
    | succ b =>
      have : allMem (t :: F) = mem t ++ allMem F := rfl
      rw [this]
      exact List.mem_append_right _ (ih b (by simpa using hb) x (by simpa using hx))

/-- The insert descent terminates on any represented branch within fuel
`level + 1`. -/
theorem insDescend_total (st : Store) (r rkey : Nat) :
    ∀ (t : TTree) (level hi : Nat), reprT st level hi t = true →
      ∀ i rg c0 c1, t = TTree.node i rg c0 c1 →
      ∀ keybit fuel, level + 1 ≤ fuel →
        (insDescend st r rkey keybit i fuel).isSome = true := by
  intro t
  induction t with
  | nil => intro level hi _ i rg c0 c1 heq; cases heq
  | node i0 rg0 t0 t1 ih0 ih1 =>
    intro level hi hrep i rg c0 c1 heq keybit fuel hfuel
    cases heq
    obtain ⟨h1, h2, h3, h4, h5, h6⟩ := reprT_node_parts st level hi i0 rg0 t0 t1 hrep
    obtain ⟨f, rfl⟩ : ∃ f, fuel = f + 1 := ⟨fuel - 1, by omega⟩
    unfold insDescend
    by_cases hk : (st i0).key = rkey
    · simp [hk]
    · rw [if_neg hk]
      dsimp only
      simp only [child, decide_eq_true_eq]
      by_cases hd : rkey &&& keybit / 2 = 0
    -- the zero-child direction
      · rw [if_neg (fun hc => hc hd)]
        cases t0 with
        | nil =>
          have h3' : (st i0).child0 = none := by simpa using h3
          rw [h3']
          simp
        | node j a b' c' =>
          have h3' : 0 < level ∧ (st i0).child0 = some j
              ∧ (st j).parent = PRef.node i0 := by simpa using h3
          rw [h3'.2.1]
          exact ih0 (level - 1) (2 * hi) h5 j a b' c' rfl (keybit / 2) f
            (by have := h3'.1; omega)
    -- the one-child direction
      · rw [if_pos hd]
        cases t1 with
        | nil =>
          have h4' : (st i0).child1 = none := by simpa using h4
          rw [h4']
          simp
        | node j a b' c' =>
          have h4' : 0 < level ∧ (st i0).child1 = some j
              ∧ (st j).parent = PRef.node i0 := by simpa using h4
          rw [h4'.2.1]
          exact ih1 (level - 1) (2 * hi + 1) h6 j a b' c' rfl (keybit / 2) f
            (by have := h4'.1; omega)

/-- `_trieinsert` succeeds (attaches and reports true) on a represented
index whose count is strictly below the count word's maximum, for any item
with an in-range key that is not already attached. -/
theorem trieinsert_ok (w cw : Nat) (st : Store) (h : Head) (F : List TTree) (p : Nat)
    (hrep : TrieRepr w cw st h F) (hkey : (st p).key < 2 ^ w) (hp : p ∉ allMem F)
    (hroom : h.count < 2 ^ cw - 1) :
    ∃ st2 h2, trieinsert cw st h p = some (st2, h2, true) := by
  obtain ⟨hw, hlen, hbr, hcnt, hlt⟩ := hrep
  have hpow := Nat.two_pow_pos cw
  have hnof : ¬ ((h.count + 1) % 2 ^ cw < h.count) := by
    rw [Nat.mod_eq_of_lt (by omega)]
    omega
  unfold trieinsert
  rw [if_neg hnof]
  dsimp only
  cases hslot : h.children (bitscanr ((st p).key)) with
  | none => exact ⟨_, _, rfl⟩
  | some node =>
    have hbi : bitscanr ((st p).key) < w := bitscanr_lt_of_lt _ w hw hkey
    have hbOk := hbr (bitscanr ((st p).key)) hbi
    cases htree : F.getD (bitscanr ((st p).key)) TTree.nil with
    | nil =>
      rw [htree] at hbOk
      unfold branchOk at hbOk
      rw [hslot] at hbOk
      simp at hbOk
    | node i rg c0 c1 =>
      rw [htree] at hbOk
      unfold branchOk at hbOk
      simp only [Bool.and_eq_true, beq_iff_eq] at hbOk
      obtain ⟨⟨hsl, hpar⟩, hrt⟩ := hbOk
      rw [hslot] at hsl
      have hni : node = i := by injection hsl
      subst hni
      have hcongr : reprT (insInit st p) (bitscanr ((st p).key)) 1
            (TTree.node node rg c0 c1)
          = reprT st (bitscanr ((st p).key)) 1 (TTree.node node rg c0 c1) := by
        refine reprT_congr (insInit st p) st (TTree.node node rg c0 c1) _ _ ?_
        intro x hx
        refine insInit_apply_ne st p x ?_
        intro hxp
        subst hxp
        exact hp (mem_allMem F (bitscanr ((st x).key)) (hlen ▸ hbi)
          x (htree ▸ hx))
      have htot := insDescend_total (insInit st p) p ((st p).key)
        (TTree.node node rg c0 c1) (bitscanr ((st p).key)) 1 (hcongr ▸ hrt)
        node rg c0 c1 rfl (2 ^ bitscanr ((st p).key)) (bitscanr ((st p).key) + 2)
        (by omega)
      obtain ⟨s2, hs2⟩ := Option.isSome_iff_exists.1 htot
      dsimp only
      rw [hs2]
      exact ⟨_, _, rfl⟩

/-- C2: on a represented index, `insert(item)` (for a detached item with
an in-range key) fails if and only if the count is already at its maximum
representable value (`size() == max_size()`, where the increment would
wrap); on that failure the returned state is exactly the input state — no
item field and no head field is modified and the item is not attached. -/
theorem insert_fails_iff_full (w cw : Nat) (st : Store) (h : Head) (F : List TTree)
    (p : Nat) (hrep : TrieRepr w cw st h F) (hkey : (st p).key < 2 ^ w)
    (hp : p ∉ allMem F) :
    ∃ st' h' res, insertOp cw st h p = some (st', h', res)
      ∧ (res = none ↔ sizeOp h = maxSizeOp cw)
      ∧ (res = none → st' = st ∧ h' = h) := by
  have hpow := Nat.two_pow_pos cw
  have hlt := hrep.2.2.2.2
  unfold insertOp
  by_cases hroom : h.count < 2 ^ cw - 1
  · obtain ⟨st2, h2, htr⟩ := trieinsert_ok w cw st h F p hrep hkey hp hroom
    rw [if_pos hroom, htr]
    refine ⟨st2, h2, some p, rfl, ?_, ?_⟩
    · simp only [sizeOp, maxSizeOp]
      constructor
      · intro hc; cases hc
      · intro hc; omega
    · intro hc; cases hc
  · rw [if_neg hroom]
    refine ⟨st, h, none, rfl, ?_, fun _ => ⟨rfl, rfl⟩⟩
    simp only [sizeOp, maxSizeOp]
    constructor
    · intro _; omega
    · intro _; trivial

/-- Witness for C2 at the saturated one-item index: inserting detached
item 1 (key 1) reports failure and leaves the state untouched. -/
theorem insert_fails_iff_full_witness :
    ∃ st' h' res, insertOp 1 stFull hFull 1 = some (st', h', res)
      ∧ (res = none ↔ sizeOp hFull = maxSizeOp 1)
      ∧ (res = none → st' = stFull ∧ h' = hFull) :=
  insert_fails_iff_full 1 1 stFull hFull [TTree.node 0 [] TTree.nil TTree.nil] 1
    ⟨by decide, by decide,
      fun b hb => by
        have hb0 : b = 0 := by omega
        subst hb0
        decide,
      by decide, by decide⟩
    (by decide) (by decide)


/-! ## The find family on a represented index -/

/-- Converse bit-scan bound: a shifted value of 1 pins the value between
consecutive powers of two. -/
theorem bounds_of_shiftr_one (v b : Nat) (h : v >>> b = 1) :
    2 ^ b ≤ v ∧ v < 2 ^ (b + 1) := by
  rw [Nat.shiftRight_eq_div_pow] at h
  have hpos := Nat.two_pow_pos b
  constructor
  · have h1 : 1 ≤ v / 2 ^ b := by omega
    have := (Nat.one_le_div_iff hpos).1 h1
    omega
  · have h2 : v / 2 ^ b < 2 := by omega
    have := (Nat.div_lt_iff_lt_mul hpos).1 h2
    rw [Nat.pow_succ]
    omega

/-- Every member of the forest lies in some branch. -/
theorem allMem_mem (F : List TTree) :
    ∀ x ∈ allMem F, ∃ b, b < F.length ∧ x ∈ mem (F.getD b TTree.nil) := by
  induction F with
  | nil => intro x hx; simp [allMem] at hx
  | cons t F ih =>
    intro x hx
    have he : allMem (t :: F) = mem t ++ allMem F := rfl
    rw [he] at hx
    rcases List.mem_append.1 hx with h1 | h1
    · exact ⟨0, by simp, by simpa using h1⟩
    · obtain ⟨b, hb, hm⟩ := ih x h1
      exact ⟨b + 1, by simpa using hb, by simpa using hm⟩

/-- Keys of members of a represented index fit the key width. -/
theorem allMem_key_lt (w cw : Nat) (st : Store) (h : Head) (F : List TTree)
    (hrep : TrieRepr w cw st h F) : ∀ y ∈ allMem F, (st y).key < 2 ^ w := by
  obtain ⟨hw, hlen, hbr, -, -⟩ := hrep
  intro y hy
  obtain ⟨b, hb, hm⟩ := allMem_mem F y hy
  rw [hlen] at hb
  have hbOk := hbr b hb
  cases htree : F.getD b TTree.nil with
  | nil => rw [htree] at hm; simp [mem] at hm
  | node i rg c0 c1 =>
    rw [htree] at hbOk hm
    unfold branchOk at hbOk
    simp only [Bool.and_eq_true, beq_iff_eq] at hbOk
    have hky := reprT_mem_key st _ b 1 hbOk.2 y hm
    obtain ⟨h1, h2⟩ := bounds_of_shiftr_one _ _ hky
    have : 2 ^ (b + 1) ≤ 2 ^ w := Nat.pow_le_pow_right (by omega) (by omega)
    omega

/-- Soundness of the modelled find descent: a hit is a member of the
branch and carries the searched key. -/
theorem findDescend_sound (st : Store) (k : Nat) :
    ∀ (t : TTree) (level hi : Nat), reprT st level hi t = true →
      ∀ i rg c0 c1, t = TTree.node i rg c0 c1 →
      ∀ keybit fuel x, findDescend st k keybit i fuel = some x →
        x ∈ mem t ∧ (st x).key = k := by
  intro t
  induction t with
  | nil => intro level hi _ i rg c0 c1 heq; cases heq
  | node i0 rg0 t0 t1 ih0 ih1 =>
    intro level hi hrep i rg c0 c1 heq keybit fuel x hfd
    cases heq
    obtain ⟨h1, h2, h3, h4, h5, h6⟩ := reprT_node_parts st level hi i0 rg0 t0 t1 hrep
    cases fuel with
    | zero => simp [findDescend] at hfd
    | succ f =>
      unfold findDescend at hfd
      by_cases hk : (st i0).key = k
      · rw [if_pos hk] at hfd
        have hx : x = i0 := by injection hfd; omega
        subst hx
        exact ⟨List.mem_cons_self _ _, hk⟩
      · rw [if_neg hk] at hfd
        dsimp only at hfd
        simp only [child, decide_eq_true_eq] at hfd
        by_cases hd : k &&& keybit / 2 = 0
        · rw [if_neg (fun hc => hc hd)] at hfd
          cases t0 with
          | nil =>
            have h3' : (st i0).child0 = none := by simpa using h3
            rw [h3'] at hfd
            simp at hfd
          | node j a b' c' =>
            have h3' : 0 < level ∧ (st i0).child0 = some j
                ∧ (st j).parent = PRef.node i0 := by simpa using h3
            rw [h3'.2.1] at hfd
            dsimp only at hfd
            obtain ⟨hmem, hkey⟩ := ih0 (level - 1) (2 * hi) h5 j a b' c' rfl
              (keybit / 2) f x hfd
            exact ⟨List.mem_cons_of_mem _ (List.mem_append_right _
              (List.mem_append_left _ hmem)), hkey⟩
        · rw [if_pos hd] at hfd
          cases t1 with
          | nil =>
            have h4' : (st i0).child1 = none := by simpa using h4
            rw [h4'] at hfd
            simp at hfd
          | node j a b' c' =>
            have h4' : 0 < level ∧ (st i0).child1 = some j
                ∧ (st j).parent = PRef.node i0 := by simpa using h4
            rw [h4'.2.1] at hfd
            dsimp only at hfd
            obtain ⟨hmem, hkey⟩ := ih1 (level - 1) (2 * hi + 1) h6 j a b' c' rfl
              (keybit / 2) f x hfd
            exact ⟨List.mem_cons_of_mem _ (List.mem_append_right _
              (List.mem_append_right _ hmem)), hkey⟩

/-- Completeness of the modelled find descent: a branch holding the key
prefix of `k` and a member keyed `k` yields a hit within fuel
`level + 1`. -/
theorem findDescend_complete (st : Store) (k : Nat) :
    ∀ (t : TTree) (level : Nat), reprT st level (k >>> level) t = true →
      (∃ x ∈ mem t, (st x).key = k) →
      ∀ i rg c0 c1, t = TTree.node i rg c0 c1 →
      ∀ fuel, level + 1 ≤ fuel →
        (findDescend st k (2 ^ level) i fuel).isSome = true := by
  intro t
  induction t with
  | nil => intro level _ _ i rg c0 c1 heq; cases heq
  | node i0 rg0 t0 t1 ih0 ih1 =>
    intro level hrep hex i rg c0 c1 heq fuel hfuel
    cases heq
    obtain ⟨h1, h2, h3, h4, h5, h6⟩ :=
      reprT_node_parts st level (k >>> level) i0 rg0 t0 t1 hrep
    obtain ⟨f, rfl⟩ : ∃ f, fuel = f + 1 := ⟨fuel - 1, by omega⟩
    unfold findDescend
    by_cases hk : (st i0).key = k
    · simp [hk]
    · rw [if_neg hk]
      dsimp only
      simp only [child, decide_eq_true_eq]
      obtain ⟨x, hx, hxk⟩ := hex
      rcases List.mem_cons.1 hx with hh | hh
      · exact absurd (hh ▸ hxk) hk
      rcases List.mem_append.1 hh with hh' | hh'
      · have := (ringOk_props st ((st i0).key) i0 rg0 i0 h2 x hh').1
        exact absurd (this ▸ hxk) hk
      rcases List.mem_append.1 hh' with hc | hc
      · cases t0 with
        | nil => simp [mem] at hc
        | node j a b' c' =>
          have h3' : 0 < level ∧ (st i0).child0 = some j
              ∧ (st j).parent = PRef.node i0 := by simpa using h3
          have hkx : k >>> (level - 1) = 2 * (k >>> level) := by
            have := reprT_mem_key st (TTree.node j a b' c') (level - 1)
              (2 * (k >>> level)) h5 x hc
            rw [hxk] at this
            exact this
          have hd : k &&& 2 ^ (level - 1) = 0 := by
            by_contra hcon
            have := (and_pow_two_mod k (level - 1)).1 hcon
            omega
          rw [keybit_half level h3'.1, if_neg (fun hcc => hcc hd), h3'.2.1]
          dsimp only
          have h5' : reprT st (level - 1) (k >>> (level - 1))
              (TTree.node j a b' c') = true := by
            rw [hkx]; exact h5
          exact ih0 (level - 1) h5' ⟨x, hc, hxk⟩ j a b' c' rfl f
            (by have := h3'.1; omega)
      · cases t1 with
        | nil => simp [mem] at hc
        | node j a b' c' =>
          have h4' : 0 < level ∧ (st i0).child1 = some j
              ∧ (st j).parent = PRef.node i0 := by simpa using h4
          have hkx : k >>> (level - 1) = 2 * (k >>> level) + 1 := by
            have := reprT_mem_key st (TTree.node j a b' c') (level - 1)
              (2 * (k >>> level) + 1) h6 x hc
            rw [hxk] at this
            exact this
          have hd : k &&& 2 ^ (level - 1) ≠ 0 := by
            rw [and_pow_two_mod k (level - 1)]
            omega
          have hd' : ¬ (k &&& 2 ^ (level - 1) = 0) := hd
          rw [keybit_half level h4'.1, if_pos hd', h4'.2.1]
          dsimp only
          have h6' : reprT st (level - 1) (k >>> (level - 1))
              (TTree.node j a b' c') = true := by
            rw [hkx]; exact h6
          exact ih1 (level - 1) h6' ⟨x, hc, hxk⟩ j a b' c' rfl f
            (by have := h4'.1; omega)

/-- On a represented index, a find hit for an in-range key is an attached
member carrying that key. -/
theorem triefind_sound (w cw : Nat) (st : Store) (h : Head) (F : List TTree)
    (k x : Nat) (hrep : TrieRepr w cw st h F) (hk : k < 2 ^ w)
    (hfind : triefind st h k = some x) : x ∈ allMem F ∧ (st x).key = k := by
  obtain ⟨hw, hlen, hbr, -, -⟩ := hrep
  unfold triefind at hfind
  cases hslot : h.children (bitscanr k) with
  | none => rw [hslot] at hfind; simp at hfind
  | some node =>
    rw [hslot] at hfind
    dsimp only at hfind
    have hbi : bitscanr k < w := bitscanr_lt_of_lt k w hw hk
    have hbOk := hbr (bitscanr k) hbi
    cases htree : F.getD (bitscanr k) TTree.nil with
    | nil =>
      rw [htree] at hbOk
      unfold branchOk at hbOk
      rw [hslot] at hbOk
      simp at hbOk
    | node i rg c0 c1 =>
      rw [htree] at hbOk
      unfold branchOk at hbOk
      simp only [Bool.and_eq_true, beq_iff_eq] at hbOk
      obtain ⟨⟨hsl, hpar⟩, hrt⟩ := hbOk
      rw [hslot] at hsl
      have hni : node = i := by injection hsl
      subst hni
      obtain ⟨hmem, hkey⟩ := findDescend_sound st k (TTree.node node rg c0 c1)
        (bitscanr k) 1 hrt node rg c0 c1 rfl (2 ^ bitscanr k) (bitscanr k + 2) x hfind
      exact ⟨mem_allMem F (bitscanr k) (hlen ▸ hbi) x (htree ▸ hmem), hkey⟩

/-- On a represented index, find hits every key that some member
carries. -/
theorem triefind_complete (w cw : Nat) (st : Store) (h : Head) (F : List TTree)
    (k : Nat) (hrep : TrieRepr w cw st h F)
    (hex : ∃ x ∈ allMem F, (st x).key = k) : (triefind st h k).isSome = true := by
  obtain ⟨hw, hlen, hbr, -, -⟩ := hrep
  obtain ⟨x, hx, hxk⟩ := hex
  obtain ⟨b, hb, hm⟩ := allMem_mem F x hx
  rw [hlen] at hb
  have hbOk := hbr b hb
  cases htree : F.getD b TTree.nil with
  | nil => rw [htree] at hm; simp [mem] at hm
  | node i rg c0 c1 =>
    rw [htree] at hbOk hm
    unfold branchOk at hbOk
    simp only [Bool.and_eq_true, beq_iff_eq] at hbOk
    obtain ⟨⟨hsl, hpar⟩, hrt⟩ := hbOk
    have hkb : k >>> b = 1 := by
      have := reprT_mem_key st _ b 1 hrt x hm
      rw [hxk] at this
      exact this
    obtain ⟨hb1, hb2⟩ := bounds_of_shiftr_one k b hkb
    have hbsc : bitscanr k = b := bitscanr_unique k b hb1 hb2
    unfold triefind
    rw [hbsc, hsl]
    dsimp only
    have hrt' : reprT st b (k >>> b) (TTree.node i rg c0 c1) = true := by
      rw [hkb]; exact hrt
    exact findDescend_complete st k (TTree.node i rg c0 c1) b hrt'
      ⟨x, hm, hxk⟩ i rg c0 c1 rfl (b + 2) (by omega)

/-- Behaviour of an upward `findSome?` scan over a half-open range: a
`none` result means every probe misses, and a `some` result names the
first probe that hits. -/
theorem findSome_range_spec (f : Nat → Option Nat) :
    ∀ (n k0 : Nat),
      ((List.range' k0 n).findSome? f = none ↔
        ∀ j, k0 ≤ j → j < k0 + n → f j = none)
      ∧ (∀ x, (List.range' k0 n).findSome? f = some x →
          ∃ j, k0 ≤ j ∧ j < k0 + n ∧ f j = some x
            ∧ ∀ jp, k0 ≤ jp → jp < j → f jp = none) := by
  intro n
  induction n with
  | zero =>
    intro k0
    refine ⟨⟨fun _ j hj1 hj2 => by omega, fun _ => rfl⟩, fun x hx => ?_⟩
    simp [List.range'] at hx
  | succ n ih =>
    intro k0
    have hr : List.range' k0 (n + 1) = k0 :: List.range' (k0 + 1) n := rfl
    rw [hr]
    cases hf : f k0 with
    | some v =>
      constructor
      · constructor
        · intro hnone
          rw [List.findSome?_cons, hf] at hnone
          cases hnone
        · intro hall
          exfalso
          rw [hall k0 le_rfl (by omega)] at hf
          cases hf
      · intro x hx
        rw [List.findSome?_cons, hf] at hx
        refine ⟨k0, le_rfl, by omega, ?_, fun jp h1 h2 => by omega⟩
        rw [hf]
        exact hx
    | none =>
      have hstep : (k0 :: List.range' (k0 + 1) n).findSome? f
          = (List.range' (k0 + 1) n).findSome? f := by
        rw [List.findSome?_cons, hf]
      constructor
      · rw [hstep, (ih (k0 + 1)).1]
        constructor
        · intro hall j hj1 hj2
          by_cases hj : j = k0
          · rw [hj]; exact hf
          · exact hall j (by omega) (by omega)
        · intro hall j hj1 hj2
          exact hall j (by omega) (by omega)
      · intro x hx
        rw [hstep] at hx
        obtain ⟨j, hj1, hj2, hj3, hj4⟩ := (ih (k0 + 1)).2 x hx
        refine ⟨j, by omega, by omega, hj3, fun jp h1 h2 => ?_⟩
        by_cases hj : jp = k0
        · rw [hj]; exact hf
        · exact hj4 jp (by omega) h2

/-- C1: on every represented index, `nearest_find(k)` returns an attached
item whose key is at least `k` and minimal among attached items with key
at least `k`, and returns not-found (`end()`) exactly when no attached
item has key at least `k`. -/
theorem nearest_find_min (w cw : Nat) (st : Store) (h : Head) (F : List TTree)
    (k : Nat) (hrep : TrieRepr w cw st h F) :
    (∀ x, nearestFind w st h k = some x →
        x ∈ allMem F ∧ k ≤ (st x).key
          ∧ ∀ y ∈ allMem F, k ≤ (st y).key → (st x).key ≤ (st y).key)
      ∧ (nearestFind w st h k = none ↔ ∀ y ∈ allMem F, (st y).key < k) := by
  have hkeylt := allMem_key_lt w cw st h F hrep
  have hspec := findSome_range_spec (fun kp => triefind st h kp) (2 ^ w - k) k
  unfold nearestFind
  constructor
  · intro x hx
    obtain ⟨j, hj1, hj2, hj3, hj4⟩ := hspec.2 x hx
    have hjlt : j < 2 ^ w := by omega
    obtain ⟨hmem, hkey⟩ := triefind_sound w cw st h F j x hrep hjlt hj3
    refine ⟨hmem, by omega, ?_⟩
    intro y hy hky
    by_contra hcon
    push_neg at hcon
    have hylt := hkeylt y hy
    have hcomp := triefind_complete w cw st h F ((st y).key) hrep ⟨y, hy, rfl⟩
    have hnone := hj4 ((st y).key) (by omega) (by omega)
    rw [hnone] at hcomp
    cases hcomp
  · constructor
    · intro hnone y hy
      by_contra hcon
      push_neg at hcon
      have hylt := hkeylt y hy
      have hcomp := triefind_complete w cw st h F ((st y).key) hrep ⟨y, hy, rfl⟩
      have hmiss := hspec.1.1 hnone ((st y).key) hcon (by omega)
      rw [hmiss] at hcomp
      cases hcomp
    · intro hall
      apply hspec.1.2
      intro j hj1 hj2
      cases hfind : triefind st h j with
      | none => rfl
      | some x =>
        exfalso
        obtain ⟨hmem, hkey⟩ := triefind_sound w cw st h F j x hrep (by omega) hfind
        have := hall x hmem
        omega

/-- Witness for C1 at the one-item index keyed 1: the nearest-find
minimality statement holds at probe key 1. -/
theorem nearest_find_min_witness :
    (∀ x, nearestFind 1 stFull hFull 1 = some x →
        x ∈ allMem [TTree.node 0 [] TTree.nil TTree.nil] ∧ 1 ≤ (stFull x).key
          ∧ ∀ y ∈ allMem [TTree.node 0 [] TTree.nil TTree.nil],
              1 ≤ (stFull y).key → (stFull x).key ≤ (stFull y).key)
      ∧ (nearestFind 1 stFull hFull 1 = none
          ↔ ∀ y ∈ allMem [TTree.node 0 [] TTree.nil TTree.nil], (stFull y).key < 1) :=
  nearest_find_min 1 1 stFull hFull [TTree.node 0 [] TTree.nil TTree.nil] 1
    ⟨by decide, by decide,
      fun b hb => by
        have hb0 : b = 0 := by omega
        subst hb0
        decide,
      by decide, by decide⟩



/-! ## Traversal stays in branch order -/

/-- First step of a well-formed ring: the primary's next sibling is a
ring member or the primary itself. -/
theorem ringOk_head_sib1 (st : Store) (k first : Nat) (l : List Nat) (prev : Nat)
    (hok : ringOk st k first prev l = true) :
    (st prev).sib1 ∈ l ∨ (st prev).sib1 = first := by
  cases l with
  | nil =>
    unfold ringOk at hok
    simp only [Bool.and_eq_true, beq_iff_eq] at hok
    exact Or.inr hok.1
  | cons y ys =>
    unfold ringOk at hok
    simp only [Bool.and_eq_true, beq_iff_eq] at hok
    rw [hok.1.1.1.1.1.1]
    exact Or.inl (List.mem_cons_self _ _)

/-- Within a well-formed ring, every member's next sibling is a ring
member or the closing primary. -/
theorem ringOk_mem_sib1 (st : Store) (k first : Nat) :
    ∀ (l : List Nat) (prev : Nat), ringOk st k first prev l = true →
      ∀ x ∈ l, (st x).sib1 ∈ l ∨ (st x).sib1 = first := by
  intro l
  induction l with
  | nil => intro prev _ x hx; cases hx
  | cons y ys ih =>
    intro prev hok x hx
    unfold ringOk at hok
    simp only [Bool.and_eq_true, beq_iff_eq] at hok
    rcases List.mem_cons.1 hx with hh | hh
    · subst hh
      cases ys with
      | nil =>
        have hrec := hok.2
        unfold ringOk at hrec
        simp only [Bool.and_eq_true, beq_iff_eq] at hrec
        exact Or.inr hrec.1
      | cons z zs =>
        have hrec := hok.2
        unfold ringOk at hrec
        simp only [Bool.and_eq_true, beq_iff_eq] at hrec
        rw [hrec.1.1.1.1.1.1]
        exact Or.inl (List.mem_cons_of_mem _ (List.mem_cons_self _ _))
    · rcases ih y hok.2 x hh with h1 | h1
      · exact Or.inl (List.mem_cons_of_mem _ h1)
      · exact Or.inr h1

/-- `_triebranchnext` from any member of a represented subtree stays in
the enclosing branch: it yields another branch member or reports the
branch root, given the parent-climb behaviour of the subtree's own
root. -/
theorem triebranchnext_step (st : Store) (root : Nat) (M : List Nat) (b : Nat) :
    ∀ (t : TTree) (level hi : Nat), reprT st level hi t = true → level ≤ b →
      ∀ i rg c0 c1, t = TTree.node i rg c0 c1 →
      (∀ x, x ∈ mem t → x ∈ M) →
      (st i).parent ≠ PRef.null →
      (∀ fb, b - level + 2 ≤ fb →
        branchUp st i fb = BRes.top root
          ∨ ∃ c, c ∈ M ∧ branchUp st i fb = BRes.found c) →
      ∀ r, r ∈ mem t → ∀ fuel, b + 3 ≤ fuel →
        (∃ x, x ∈ M ∧ triebranchnext st fuel r = BRes.found x)
          ∨ triebranchnext st fuel r = BRes.top root := by
  intro t
  induction t with
  | nil => intro level hi _ _ i rg c0 c1 heq; cases heq
  | node i0 rg0 t0 t1 ih0 ih1 =>
    intro level hi hrep hlb i rg c0 c1 heq hM hpar hroot r hr fuel hfuel
    cases heq
    obtain ⟨h1, h2, h3, h4, h5, h6⟩ := reprT_node_parts st level hi i0 rg0 t0 t1 hrep
    rcases List.mem_cons.1 hr with hh | hh
    swap
    rcases List.mem_append.1 hh with hring | hh'
    rotate_left
    rcases List.mem_append.1 hh' with hc | hc
    -- r in the zero-child subtree
    · cases t0 with
      | nil => simp [mem] at hc
      | node j a b' c' =>
        have h3' : 0 < level ∧ (st i0).child0 = some j
            ∧ (st j).parent = PRef.node i0 := by simpa using h3
        refine ih0 (level - 1) (2 * hi) h5 (by omega) j a b' c' rfl
          (fun x hx => hM x (List.mem_cons_of_mem _ (List.mem_append_right _
            (List.mem_append_left _ hx))))
          (by rw [h3'.2.2]; intro hcc; cases hcc) ?_ r hc fuel hfuel
        intro fb hfb
        obtain ⟨f2, rfl⟩ : ∃ f2, fb = f2 + 1 := ⟨fb - 1, by omega⟩
        unfold branchUp
        rw [h3'.2.2]
        dsimp only
        cases t1 with
        | nil =>
          have h4' : (st i0).child1 = none := by simpa using h4
          rw [if_neg (fun hcc => hcc.2 h4')]
          exact hroot f2 (by have := h3'.1; omega)
        | node j2 a2 b2 c2 =>
          have h4' : 0 < level ∧ (st i0).child1 = some j2
              ∧ (st j2).parent = PRef.node i0 := by simpa using h4
          rw [if_pos ⟨h3'.2.1, by rw [h4'.2.1]; intro hcc; cases hcc⟩, h4'.2.1]
          exact Or.inr ⟨j2, hM j2 (List.mem_cons_of_mem _ (List.mem_append_right _
            (List.mem_append_right _ (List.mem_cons_self _ _)))), rfl⟩
    -- r in the one-child subtree
    · cases t1 with
      | nil => simp [mem] at hc
      | node j a b' c' =>
        have h4' : 0 < level ∧ (st i0).child1 = some j
            ∧ (st j).parent = PRef.node i0 := by simpa using h4
        refine ih1 (level - 1) (2 * hi + 1) h6 (by omega) j a b' c' rfl
          (fun x hx => hM x (List.mem_cons_of_mem _ (List.mem_append_right _
            (List.mem_append_right _ hx))))
          (by rw [h4'.2.2]; intro hcc; cases hcc) ?_ r hc fuel hfuel
        intro fb hfb
        obtain ⟨f2, rfl⟩ : ∃ f2, fb = f2 + 1 := ⟨fb - 1, by omega⟩
        unfold branchUp
        rw [h4'.2.2]
        dsimp only
        by_cases hcc : (st i0).child0 = some j
        · rw [if_pos ⟨hcc, by rw [h4'.2.1]; intro hc2; cases hc2⟩, h4'.2.1]
          exact Or.inr ⟨j, hM j (List.mem_cons_of_mem _ (List.mem_append_right _
            (List.mem_append_right _ (List.mem_cons_self _ _)))), rfl⟩
        · rw [if_neg (fun hc2 => hcc hc2.1)]
          exact hroot f2 (by have := h4'.1; omega)
    -- r is the primary or on its ring
    all_goals {
      first
      | (have hrring : r = i0 ∨ r ∈ rg0 := Or.inl hh)
      | (have hrring : r = i0 ∨ r ∈ rg0 := Or.inr hring)
      have hdich : (st r).sib1 ∈ rg0 ∨ (st r).sib1 = i0 := by
        rcases hrring with hh0 | hh0
        · rw [hh0]; exact ringOk_head_sib1 st ((st i0).key) i0 rg0 i0 h2
        · exact ringOk_mem_sib1 st ((st i0).key) i0 rg0 i0 h2 r hh0
      have hprim0 : isPrimary (st i0) = true := by
        simp only [isPrimary, decide_eq_true_eq]
        exact hpar
      unfold triebranchnext
      by_cases hprim : isPrimary (st ((st r).sib1)) = true
      · rw [if_neg (not_not_intro hprim)]
        have hsib : (st r).sib1 = i0 := by
          rcases hdich with hd | hd
          · exfalso
            have := (ringOk_props st ((st i0).key) i0 rg0 i0 h2 _ hd).2.1
            rw [isPrimary, this] at hprim
            simp at hprim
          · exact hd
        obtain ⟨f1, rfl⟩ : ∃ f1, fuel = f1 + 2 := ⟨fuel - 2, by omega⟩
        have hrtp : ringToPrimary st r (f1 + 2) = some i0 := by
          rcases hrring with hh0 | hh0
          · unfold ringToPrimary
            rw [hh0, if_pos hprim0]
          · have hsec := (ringOk_props st ((st i0).key) i0 rg0 i0 h2 _ hh0).2.1
            unfold ringToPrimary
            rw [if_neg (by rw [isPrimary, hsec]; simp), hsib]
            unfold ringToPrimary
            rw [if_pos hprim0]
        rw [hrtp]
        dsimp only
        cases t0 with
        | nil =>
          have h3' : (st i0).child0 = none := by simpa using h3
          rw [h3']
          dsimp only
          cases t1 with
          | nil =>
            have h4' : (st i0).child1 = none := by simpa using h4
            rw [h4']
            dsimp only
            exact (hroot (f1 + 2) (by omega)).elim Or.inr
              (fun ⟨c, hcM, hce⟩ => Or.inl ⟨c, hcM, hce⟩)
          | node j2 a2 b2 c2 =>
            have h4' : 0 < level ∧ (st i0).child1 = some j2
                ∧ (st j2).parent = PRef.node i0 := by simpa using h4
            rw [h4'.2.1]
            exact Or.inl ⟨j2, hM j2 (List.mem_cons_of_mem _ (List.mem_append_right _
              (List.mem_append_right _ (List.mem_cons_self _ _)))), rfl⟩
        | node j2 a2 b2 c2 =>
          have h3' : 0 < level ∧ (st i0).child0 = some j2
              ∧ (st j2).parent = PRef.node i0 := by simpa using h3
          rw [h3'.2.1]
          exact Or.inl ⟨j2, hM j2 (List.mem_cons_of_mem _ (List.mem_append_right _
            (List.mem_append_left _ (List.mem_cons_self _ _)))), rfl⟩
      · rw [if_pos hprim]
        rcases hdich with hd | hd
        · exact Or.inl ⟨(st r).sib1, hM _ (List.mem_cons_of_mem _
            (List.mem_append_left _ hd)), rfl⟩
        · exfalso
          rw [hd] at hprim
          exact hprim hprim0
    }

/-- `_triebranchnext` from any member of a represented branch yields
another member of that branch or reports the branch root. -/
theorem triebranchnext_branch (st : Store) (h : Head) (b root : Nat)
    (rgR : List Nat) (cR0 cR1 : TTree)
    (hbOk : branchOk st h b (TTree.node root rgR cR0 cR1) = true) :
    ∀ r ∈ mem (TTree.node root rgR cR0 cR1), ∀ fuel, b + 3 ≤ fuel →
      (∃ x, x ∈ mem (TTree.node root rgR cR0 cR1)
          ∧ triebranchnext st fuel r = BRes.found x)
        ∨ triebranchnext st fuel r = BRes.top root := by
  unfold branchOk at hbOk
  simp only [Bool.and_eq_true, beq_iff_eq] at hbOk
  obtain ⟨⟨hsl, hpar⟩, hrt⟩ := hbOk
  intro r hr fuel hfuel
  refine triebranchnext_step st root (mem (TTree.node root rgR cR0 cR1)) b
    (TTree.node root rgR cR0 cR1) b 1 hrt le_rfl root rgR cR0 cR1 rfl
    (fun x hx => hx) (by rw [hpar]; intro hc; cases hc) ?_ r hr fuel hfuel
  intro fb hfb
  obtain ⟨f2, rfl⟩ : ∃ f2, fb = f2 + 1 := ⟨fb - 1, by omega⟩
  unfold branchUp
  rw [hpar]
  exact Or.inl rfl

/-- A head-slot scan hit is the root of a populated branch at or beyond
the scanned-from position. -/
theorem headScan_mem (w cw : Nat) (st : Store) (h : Head) (F : List TTree)
    (hrep : TrieRepr w cw st h F) (b0 : Nat) :
    headScan h w b0 = none
      ∨ ∃ x bp, headScan h w b0 = some x ∧ b0 ≤ bp ∧ bp < w
          ∧ x ∈ mem (F.getD bp TTree.nil) := by
  cases hscan : headScan h w b0 with
  | none => exact Or.inl rfl
  | some x =>
    right
    unfold headScan at hscan
    obtain ⟨j, hj1, hj2, hj3, -⟩ :=
      (findSome_range_spec (fun bp => h.children bp) (w - b0) b0).2 x hscan
    have hjw : j < w := by omega
    have hbOk := hrep.2.2.1 j hjw
    have hj3p : h.children j = some x := hj3
    cases htree : F.getD j TTree.nil with
    | nil =>
      rw [htree] at hbOk
      unfold branchOk at hbOk
      simp only [beq_iff_eq] at hbOk
      rw [hbOk] at hj3p
      cases hj3p
    | node i rg c0 c1 =>
      rw [htree] at hbOk
      unfold branchOk at hbOk
      simp only [Bool.and_eq_true, beq_iff_eq] at hbOk
      rw [hbOk.1.1] at hj3p
      have hxi : i = x := by injection hj3p
      refine ⟨x, j, rfl, hj1, hjw, ?_⟩
      rw [htree, ← hxi]
      exact List.mem_cons_self _ _

/-- Members of the branch at slot `b` have highest set bit `b`. -/
theorem mem_branch_bitscan (w cw : Nat) (st : Store) (h : Head) (F : List TTree)
    (hrep : TrieRepr w cw st h F) (b : Nat) (hb : b < w) :
    ∀ r ∈ mem (F.getD b TTree.nil), bitscanr ((st r).key) = b := by
  intro r hr
  have hbOk := hrep.2.2.1 b hb
  cases htree : F.getD b TTree.nil with
  | nil => rw [htree] at hr; simp [mem] at hr
  | node i rg c0 c1 =>
    rw [htree] at hbOk hr
    unfold branchOk at hbOk
    simp only [Bool.and_eq_true, beq_iff_eq] at hbOk
    have hky := reprT_mem_key st _ b 1 hbOk.2 r hr
    obtain ⟨hb1, hb2⟩ := bounds_of_shiftr_one _ _ hky
    exact bitscanr_unique _ _ hb1 hb2

/-- C3 (amended): one forward-traversal step from any member of the
branch at head slot `b` reaches `end()` or a member of a branch at slot
`b\' ≥ b`, so the highest set bit of the visited keys never decreases
along the traversal; within one branch the keys themselves need not be
non-decreasing (the walk is a pre-order — see the recorded
counterexample). -/
theorem trienext_branch_nondecreasing (w cw : Nat) (st : Store) (h : Head)
    (F : List TTree) (b r fuel : Nat) (hrep : TrieRepr w cw st h F) (hb : b < w)
    (hr : r ∈ mem (F.getD b TTree.nil)) (hfuel : w + 2 ≤ fuel) :
    trienext w st h r fuel = some none
      ∨ ∃ rp bp, trienext w st h r fuel = some (some rp)
          ∧ b ≤ bp ∧ bp < w ∧ rp ∈ mem (F.getD bp TTree.nil)
          ∧ bitscanr ((st r).key) ≤ bitscanr ((st rp).key) := by
  have hbOk := hrep.2.2.1 b hb
  cases htree : F.getD b TTree.nil with
  | nil => rw [htree] at hr; simp [mem] at hr
  | node root rgR cR0 cR1 =>
    rw [htree] at hr
    have hstep := triebranchnext_branch st h b root rgR cR0 cR1 (htree ▸ hbOk)
      r hr fuel (by omega)
    unfold trienext
    rcases hstep with ⟨x, hxM, hfound⟩ | htop
    · rw [hfound]
      right
      refine ⟨x, b, rfl, le_rfl, hb, htree ▸ hxM, ?_⟩
      rw [mem_branch_bitscan w cw st h F hrep b hb r (htree ▸ hr),
        mem_branch_bitscan w cw st h F hrep b hb x (htree ▸ hxM)]
    · rw [htop]
      dsimp only
      have hbOk2 := htree ▸ hbOk
      unfold branchOk at hbOk2
      simp only [Bool.and_eq_true, beq_iff_eq] at hbOk2
      rw [hbOk2.1.2]
      dsimp only
      rcases headScan_mem w cw st h F hrep (b + 1) with hnone | ⟨x, bp, hsc, hge, hlt, hmem⟩
      · rw [hnone]
        exact Or.inl rfl
      · rw [hsc]
        right
        refine ⟨x, bp, rfl, by omega, hlt, hmem, ?_⟩
        rw [mem_branch_bitscan w cw st h F hrep b hb r (htree ▸ hr),
          mem_branch_bitscan w cw st h F hrep bp hlt x hmem]
        omega

/-- Witness for the amended C3 step at the one-item index: the single
step from the only item reaches `end()`. -/
theorem trienext_branch_nondecreasing_witness :
    trienext 1 stFull hFull 0 3 = some none
      ∨ ∃ rp bp, trienext 1 stFull hFull 0 3 = some (some rp)
          ∧ 0 ≤ bp ∧ bp < 1
          ∧ rp ∈ mem ([TTree.node 0 [] TTree.nil TTree.nil].getD bp TTree.nil)
          ∧ bitscanr ((stFull 0).key) ≤ bitscanr ((stFull rp).key) :=
  trienext_branch_nondecreasing 1 1 stFull hFull
    [TTree.node 0 [] TTree.nil TTree.nil] 0 0 3
    ⟨by decide, by decide,
      fun b hb => by
        have hb0 : b = 0 := by omega
        subst hb0
        decide,
      by decide, by decide⟩
    (by decide) (by decide) (by decide)


end BitwiseTrie
